import Mathlib

/-!
# go-lsmod: the tainted-flag codec and the field decoders

A shallow embedding of `modtainted.go` and `parse.go`.

* A Go string is an immutable sequence of bytes: `GoString` is a list of
  byte values.  `len(s)`, `s[i]` and `s[i:j]` work on bytes; a `range` loop
  over a string decodes UTF-8 (`runes`).
* `modTainted` is `uint32`; only `&` and `|` are applied to it, which
  cannot overflow.
* A Go map is the list of its entries.  The order in which a `range` loop
  visits a map is not fixed by the language, so every function that ranges
  over a map takes the visiting order as an argument, and the theorems
  quantify over all permutations of the entries.
* A function returning `(value, error)` returns a pair whose second
  component is `none` for a nil error.
* `parse` reads its file through `os.Open` and a `bufio.Scanner`; what these
  give for a path is an argument (`Source`): an open error, or the lines the
  scanner yields and its final error.
* The decoder `parseState` and the record type `ModInfo` are declared outside
  the two source files: `parseState` is an argument of `parseInfo` and
  `parse`, and `ModInfo` has the fields `parseInfo` assigns.
-/

namespace Lsmod

/-! ## Go strings -/

/-- A Go string: a sequence of bytes, each a value below 256. -/
abbrev GoString := List Nat

/-- A Go rune (a Unicode code point). -/
abbrev Rune := Nat

/-- The replacement rune `utf8.RuneError`, U+FFFD. -/
def RuneError : Rune := 0xFFFD

/-- The UTF-8 encoding of a rune, as Go's `utf8.AppendRune` writes it: this
is the conversion `string(r)` and the verb `%c`. -/
def encodeRune (r : Rune) : GoString :=
  if r ≤ 0x7F then [r]
  else if r ≤ 0x7FF then [0xC0 ||| (r >>> 6), 0x80 ||| (r &&& 0x3F)]
  else if 0x10FFFF < r ∨ (0xD800 ≤ r ∧ r ≤ 0xDFFF) then [0xEF, 0xBF, 0xBD]
  else if r ≤ 0xFFFF then
    [0xE0 ||| (r >>> 12), 0x80 ||| ((r >>> 6) &&& 0x3F), 0x80 ||| (r &&& 0x3F)]
  else
    [0xF0 ||| (r >>> 18), 0x80 ||| ((r >>> 12) &&& 0x3F),
      0x80 ||| ((r >>> 6) &&& 0x3F), 0x80 ||| (r &&& 0x3F)]

/-- The bytes of a string literal of the Go source (source files are UTF-8). -/
def utf8 (s : String) : GoString :=
  (s.toList.map fun c => encodeRune c.toNat).flatten

/-- Go's table `utf8.first`: for a leading byte at or above 0x80, the length
of the sequence it starts and the accepted range of the second byte; `none`
for a byte that starts no sequence. -/
def firstByte (b : Nat) : Option (Nat × Nat × Nat) :=
  if b < 0xC2 then none
  else if b ≤ 0xDF then some (2, 0x80, 0xBF)
  else if b = 0xE0 then some (3, 0xA0, 0xBF)
  else if b = 0xED then some (3, 0x80, 0x9F)
  else if b ≤ 0xEF then some (3, 0x80, 0xBF)
  else if b = 0xF0 then some (4, 0x90, 0xBF)
  else if b ≤ 0xF3 then some (4, 0x80, 0xBF)
  else if b = 0xF4 then some (4, 0x80, 0x8F)
  else none

/-- Go's `utf8.DecodeRuneInString`: the first rune of `s` and the number of
bytes it takes.  A byte that is not the start of a well-formed sequence is
read as `RuneError` of width 1. -/
def decodeRune : GoString → Rune × Nat
  | [] => (RuneError, 0)
  | b0 :: rest =>
    if b0 < 0x80 then (b0, 1)
    else
      match firstByte b0, rest with
      | none, _ => (RuneError, 1)
      | some _, [] => (RuneError, 1)
      | some (sz, lo, hi), b1 :: rest1 =>
        if b1 < lo ∨ hi < b1 then (RuneError, 1)
        else if sz = 2 then (((b0 &&& 0x1F) <<< 6) ||| (b1 &&& 0x3F), 2)
        else
          match rest1 with
          | [] => (RuneError, 1)
          | b2 :: rest2 =>
            if b2 < 0x80 ∨ 0xBF < b2 then (RuneError, 1)
            else if sz = 3 then
              (((b0 &&& 0x0F) <<< 12) ||| ((b1 &&& 0x3F) <<< 6) ||| (b2 &&& 0x3F), 3)
            else
              match rest2 with
              | [] => (RuneError, 1)
              | b3 :: _ =>
                if b3 < 0x80 ∨ 0xBF < b3 then (RuneError, 1)
                else
                  (((b0 &&& 0x07) <<< 18) ||| ((b1 &&& 0x3F) <<< 12)
                    ||| ((b2 &&& 0x3F) <<< 6) ||| (b3 &&& 0x3F), 4)

/-- The runes a `for _, c := range s` loop visits, with `fuel` bounding the
number of iterations. -/
def runesAux : Nat → GoString → List Rune
  | 0, _ => []
  | _, [] => []
  | fuel + 1, b :: rest =>
    (decodeRune (b :: rest)).1 :: runesAux fuel ((b :: rest).drop (decodeRune (b :: rest)).2)

/-- The runes a `for _, c := range s` loop visits.  Every iteration takes at
least one byte, so `len(s)` iterations are enough (`runesAux_fuel`). -/
def runes (s : GoString) : List Rune := runesAux s.length s

/-- The slice expression `s[i:j]`. -/
def slice (s : GoString) (i j : Nat) : GoString := (s.take j).drop i

/-! ## Errors -/

/-- An argument of a format verb. -/
inductive FmtArg where
  | str (s : GoString)
  | rune (r : Rune)
  deriving DecidableEq, Repr

/-- Why `strconv.ParseUint` rejected its input: `strconv.ErrSyntax` or
`strconv.ErrRange`. -/
inductive NumErrKind where
  | errSyntax
  | errRange
  deriving DecidableEq, Repr

/-- A Go `error` value, by the call that built it. -/
inductive GoError where
  /-- A call `fmt.Errorf(format, args...)`. -/
  | errorf (format : String) (args : List FmtArg)
  /-- A `*strconv.NumError{Func, Num, Err}`. -/
  | numError (func : String) (num : GoString) (kind : NumErrKind)
  /-- A call `errors.Wrap(cause, message)`. -/
  | wrap (cause : GoError) (message : String)
  /-- A call `errors.Wrapf(cause, format, args...)`. -/
  | wrapf (cause : GoError) (format : String) (args : List FmtArg)
  deriving DecidableEq, Repr

/-! ## modtainted.go -/

/-- The type `modTainted`: a `uint32`. -/
abbrev modTainted := Nat

def TaintedNone : modTainted := 0
def TaintedP : modTainted := 1
def TaintedF : modTainted := 2
def TaintedS : modTainted := 4
def TaintedR : modTainted := 8
def TaintedM : modTainted := 16
def TaintedB : modTainted := 32
def TaintedU : modTainted := 64
def TaintedD : modTainted := 128
def TaintedA : modTainted := 256
def TaintedW : modTainted := 512
def TaintedC : modTainted := 1024
def TaintedI : modTainted := 2048
def TaintedO : modTainted := 4096
def TaintedE : modTainted := 8192
def TaintedL : modTainted := 16384
def TaintedK : modTainted := 32768
def TaintedX : modTainted := 65536
def TaintedT : modTainted := 131072

/-- The map literal `taintFlagMap`, its entries in the order of the source. -/
def taintFlagMap : List (GoString × modTainted) :=
  [ (utf8 "(P)", TaintedP), (utf8 "(F)", TaintedF), (utf8 "(S)", TaintedS),
    (utf8 "(R)", TaintedR), (utf8 "(M)", TaintedM), (utf8 "(B)", TaintedB),
    (utf8 "(U)", TaintedU), (utf8 "(D)", TaintedD), (utf8 "(A)", TaintedA),
    (utf8 "(W)", TaintedW), (utf8 "(C)", TaintedC), (utf8 "(I)", TaintedI),
    (utf8 "(O)", TaintedO), (utf8 "(E)", TaintedE), (utf8 "(L)", TaintedL),
    (utf8 "(K)", TaintedK), (utf8 "(X)", TaintedX), (utf8 "(T)", TaintedT) ]

/-- The map assignment `m[k] = v`: the entry of `k` is replaced when there is
one, and added otherwise. -/
def mapSet {κ ν : Type} [DecidableEq κ] (m : List (κ × ν)) (k : κ) (v : ν) : List (κ × ν) :=
  if m.any (fun e => decide (e.1 = k)) then m.map (fun e => if e.1 = k then (k, v) else e)
  else m ++ [(k, v)]

/-- The variable `taintStringMap` as it is declared: the empty map. -/
def taintStringMap : List (modTainted × GoString) := []

/-- The package's `init`: `taintStringMap` after the loop over `taintFlagMap`
that visits the entries in the order `order`. -/
def init (order : List (GoString × modTainted)) : List (modTainted × GoString) :=
  order.foldl (fun m e => mapSet m e.2 e.1) taintStringMap

/-- The method `modTainted.String`; `iter` is the order in which the loop
visits the entries of `taintStringMap`.  The index `str[1]` is in range for
every entry of the table (all are three bytes long). -/
def modTainted.String (iter : List (modTainted × GoString)) (t : modTainted) : GoString :=
  if t = TaintedNone then utf8 "()"
  else
    let chars : List GoString := iter.foldl
      (fun chars e => if t &&& e.1 ≠ 0 then chars ++ [encodeRune (e.2.getD 1 0)] else chars) []
    utf8 "(" ++ [].intercalate chars ++ utf8 ")"

/-- The inner loop of `parseTainted` for the rune `c`: the entries of
`taintFlagMap` are visited in the order given, up to the first one whose
letter is `c`.  Returns the new `combined` and `found`. -/
def findFlag (c : Rune) (combined : modTainted) : List (GoString × modTainted) → modTainted × Bool
  | [] => (combined, false)
  | (str, val) :: rest =>
    if str.length = 3 ∧ str.getD 1 0 = c then (combined ||| val, true)
    else findFlag c combined rest

/-- The outer loop of `parseTainted` over the runes of `body`, from the `k`-th
on; `ord k` is the order in which the `k`-th inner loop visits `taintFlagMap`. -/
def parseTaintedLoop (ord : Nat → List (GoString × modTainted)) :
    Nat → modTainted → List Rune → modTainted × Option GoError
  | _, combined, [] => (combined, none)
  | k, combined, c :: cs =>
    match findFlag c combined (ord k) with
    | (combined1, true) => parseTaintedLoop ord (k + 1) combined1 cs
    | (_, false) => (0, some (.errorf "unknown tainted flag (%c)" [.rune c]))

/-- The function `parseTainted`. -/
def parseTainted (ord : Nat → List (GoString × modTainted)) (s : GoString) :
    modTainted × Option GoError :=
  if s.length < 2 ∨ s.getD 0 0 ≠ '('.toNat ∨ s.getD (s.length - 1) 0 ≠ ')'.toNat then
    (0, some (.errorf "invalid format: %q" [.str s]))
  else
    parseTaintedLoop ord 0 0 (runes (slice s 1 (s.length - 1)))

/-! ## parse.go: the field decoders -/

def noDeps : GoString := utf8 "-"
def delimDeps : GoString := utf8 ","

/-- Go's `strings.HasPrefix`: `len(s) >= len(p) && s[:len(p)] == p`. -/
def stringsHasPrefix (s p : GoString) : Bool :=
  decide (p.length ≤ s.length ∧ slice s 0 p.length = p)

/-- The `lower` of `strconv`: `c | ('x' - 'X')`. -/
def lower (c : Nat) : Nat := c ||| ('x'.toNat - 'X'.toNat)

/-- The digit `strconv.ParseUint` reads from the byte `c` (the `switch` in its
loop, without the underscore case, which needs base 0); `none` is its
`default` branch. -/
def digitVal (c : Nat) : Option Nat :=
  if '0'.toNat ≤ c ∧ c ≤ '9'.toNat then some (c - '0'.toNat)
  else if 'a'.toNat ≤ lower c ∧ lower c ≤ 'z'.toNat then some (lower c - 'a'.toNat + 10)
  else none

def maxUint64 : Nat := 2 ^ 64 - 1

/-- The loop of `strconv.ParseUint` over the bytes of the text; `n` is the
`uint64` accumulator and `s0` the whole text, kept for the error. -/
def parseUintLoop (s0 : GoString) (base bitSize : Nat) : Nat → GoString → Nat × Option GoError
  | n, [] => (n, none)
  | n, c :: cs =>
    match digitVal c with
    | none => (0, some (.numError "ParseUint" s0 .errSyntax))
    | some d =>
      if base ≤ d then (0, some (.numError "ParseUint" s0 .errSyntax))
      else if maxUint64 / base + 1 ≤ n then
        (2 ^ bitSize - 1, some (.numError "ParseUint" s0 .errRange))
      else
        let n0 := (n * base) % 2 ^ 64
        let n1 := (n0 + d) % 2 ^ 64
        if n1 < n0 ∨ 2 ^ bitSize - 1 < n1 then
          (2 ^ bitSize - 1, some (.numError "ParseUint" s0 .errRange))
        else parseUintLoop s0 base bitSize n1 cs

/-- Go's `strconv.ParseUint(s, base, bitSize)` for `2 ≤ base ≤ 36` and
`1 ≤ bitSize ≤ 64` (this program calls it with base 16 or 10 and 64 bits). -/
def ParseUint (s : GoString) (base bitSize : Nat) : Nat × Option GoError :=
  if s = [] then (0, some (.numError "ParseUint" s .errSyntax))
  else parseUintLoop s base bitSize 0 s

/-- The function `parseUint`. -/
def parseUint (line : GoString) : Nat × Option GoError :=
  if stringsHasPrefix line (utf8 "0x") then ParseUint (line.drop 2) 16 64
  else ParseUint line 10 64

/-- Go's `strings.Index(s, sep)`: the index of the first instance of `sep` in
`s`, `none` for the result -1. -/
def stringsIndex (sep : GoString) : GoString → Option Nat
  | [] => if sep = [] then some 0 else none
  | c :: cs =>
    if sep.isPrefixOf (c :: cs) then some 0
    else (stringsIndex sep cs).map (· + 1)

/-- The loop of Go's `genSplit`, which `strings.Split` runs with `n < 0`:
cut at each instance of `sep` found by `Index`, at most `count` times; the
last piece is what is left of the text. -/
def genSplit (sep : GoString) : Nat → GoString → List GoString
  | 0, s => [s]
  | count + 1, s =>
    match stringsIndex sep s with
    | none => [s]
    | some m => slice s 0 m :: genSplit sep count (s.drop (m + sep.length))

/-- Go's `strings.Split(s, sep)` for a non-empty `sep`.  Go bounds the loop
by the number of instances, `Count(s, sep)`, which is at most `len(s)`; the
loop ends earlier, once `Index` finds nothing (`genSplit_fuel`, for the
one-byte separator of this program). -/
def stringsSplit (s sep : GoString) : List GoString := genSplit sep s.length s

/-- Go's `strings.TrimRight(s, cutset)` for a cutset of ASCII bytes: all
trailing bytes that belong to the cutset are removed. -/
def stringsTrimRight (s cutset : GoString) : GoString :=
  s.rdropWhile fun b => decide (b ∈ cutset)

/-- The function `splitDeps`; the nil slice is the empty list. -/
def splitDeps (line : GoString) : List GoString :=
  if line = noDeps then []
  else stringsSplit (stringsTrimRight line delimDeps) delimDeps

/-! ## parse.go: lines and records -/

/-- The constant `ProcModules`. -/
def ProcModules : GoString := utf8 "/proc/modules"

def minFieldsPerLine : Nat := 6
def maxFieldsPerLine : Nat := 7

/-- Go's `unicode.IsSpace`: the Latin-1 spaces and the other runes with the
property White_Space. -/
def isSpace (r : Rune) : Bool :=
  decide (r ∈ [0x09, 0x0A, 0x0B, 0x0C, 0x0D, 0x20, 0x85, 0xA0, 0x1680, 0x2028, 0x2029, 0x202F,
      0x205F, 0x3000])
    || decide (0x2000 ≤ r ∧ r ≤ 0x200A)

/-- The loop of Go's `strings.Fields` over the runes of the text (its ASCII
path and its `FieldsFunc` path cut at the same places); `cur` holds the bytes
of the field that is open, and is empty when none is; `fuel` bounds the
number of runes. -/
def fieldsAux : Nat → GoString → GoString → List GoString
  | 0, _, cur => if cur = [] then [] else [cur]
  | _, [], cur => if cur = [] then [] else [cur]
  | fuel + 1, b :: rest, cur =>
    if isSpace (decodeRune (b :: rest)).1 then
      if cur = [] then fieldsAux fuel ((b :: rest).drop (decodeRune (b :: rest)).2) []
      else cur :: fieldsAux fuel ((b :: rest).drop (decodeRune (b :: rest)).2) []
    else
      fieldsAux fuel ((b :: rest).drop (decodeRune (b :: rest)).2)
        (cur ++ (b :: rest).take (decodeRune (b :: rest)).2)

/-- Go's `strings.Fields(s)`: the maximal runs of runes that are not white
space.  Every rune takes at least one byte, so `len(s)` steps are enough
(`fieldsAux_fuel`). -/
def stringsFields (s : GoString) : List GoString := fieldsAux s.length s []

/-- Modelled from the spec: the record type `ModInfo`, whose declaration is
not among the source files; its fields are the six that `parseInfo` assigns
(memory size, instance count, dependencies, load state, offset, tainted
bitmask).  The type of the load state is left open. -/
structure ModInfo (σ : Type) where
  Mem : Nat
  Instances : Nat
  Depends : List GoString
  State : σ
  Offset : Nat
  Tainted : modTainted
  deriving DecidableEq, Repr

/-- The function `parseInfo`.  The load-state decoder `parseState` is not
among the source files and is an argument; `ord` gives the orders in which
`parseTainted` visits its map.  The named result `info` starts as the zero
record, and an assignment `info.X, err = f(..)` stores what `f` returned also
when `err` is not nil.  `parse` calls this with 6 or 7 fields only, so the
indices are in range. -/
def parseInfo {σ : Type} [Inhabited σ] (parseState : GoString → σ × Option GoError)
    (ord : Nat → List (GoString × modTainted)) (fields : List GoString) :
    ModInfo σ × Option GoError :=
  let info : ModInfo σ := ⟨0, 0, [], default, 0, 0⟩
  let info := { info with Mem := (parseUint (fields.getD 1 [])).1 }
  match (parseUint (fields.getD 1 [])).2 with
  | some err => (info, some (.wrap err "invalid mem (field 2)"))
  | none =>
    let info := { info with Instances := (parseUint (fields.getD 2 [])).1 }
    match (parseUint (fields.getD 2 [])).2 with
    | some err => (info, some (.wrap err "invalid instances (field 3)"))
    | none =>
      let info := { info with Depends := splitDeps (fields.getD 3 []) }
      let info := { info with State := (parseState (fields.getD 4 [])).1 }
      match (parseState (fields.getD 4 [])).2 with
      | some err => (info, some (.wrap err "unknown state (field 5)"))
      | none =>
        let info := { info with Offset := (parseUint (fields.getD 5 [])).1 }
        match (parseUint (fields.getD 5 [])).2 with
        | some err => (info, some (.wrap err "invalid offset (field 6)"))
        | none =>
          if fields.length = maxFieldsPerLine then
            let info := { info with Tainted := (parseTainted ord (fields.getD 6 [])).1 }
            match (parseTainted ord (fields.getD 6 [])).2 with
            | some err => (info, some (.wrap err "unknown tainted (field 7)"))
            | none => (info, none)
          else (info, none)

/-- What `os.Open` and the `bufio.Scanner` on the file give to `parse`: the
file cannot be opened; or it is opened, the scanner yields `lines` one after
the other, and `scanner.Err()` is `scanErr` once they are used up. -/
inductive Source where
  | openError (err : GoError)
  | opened (lines : List GoString) (scanErr : Option GoError)

/-- The scanning loop of `parse` from the line of index `i` on, with the map
`mods` built so far; `ord i` gives the map orders for the line of index `i`.
The result is the map, when no line is rejected, or the error. -/
def parseLoop {σ : Type} [Inhabited σ] (parseState : GoString → σ × Option GoError)
    (ord : Nat → Nat → List (GoString × modTainted)) :
    Nat → List (GoString × ModInfo σ) → List GoString →
      List (GoString × ModInfo σ) × Option GoError
  | _, mods, [] => (mods, none)
  | i, mods, line :: rest =>
    if (stringsFields line).length < minFieldsPerLine
        ∨ maxFieldsPerLine < (stringsFields line).length then
      (mods, some (.errorf "invalid input line %q" [.str line]))
    else
      match (parseInfo parseState (ord i) (stringsFields line)).2 with
      | some err => (mods, some (.wrapf err "error parsing %q" [.str ProcModules]))
      | none =>
        parseLoop parseState ord (i + 1)
          (mapSet mods ((stringsFields line).getD 0 [])
            (parseInfo parseState (ord i) (stringsFields line)).1) rest

/-- The function `parse`; `fs` says what opening and scanning each path
gives.  A nil map is `none`. -/
def parse {σ : Type} [Inhabited σ] (parseState : GoString → σ × Option GoError)
    (ord : Nat → Nat → List (GoString × modTainted)) (fs : GoString → Source)
    (fileName : GoString) : Option (List (GoString × ModInfo σ)) × Option GoError :=
  match fs fileName with
  | .openError err => (none, some (.wrapf err "Error opening %q" [.str fileName]))
  | .opened lines scanErr =>
    match parseLoop parseState ord 0 [] lines with
    | (_, some err) => (none, some err)
    | (mods, none) =>
      match scanErr with
      | some err => (none, some (.wrapf err "Error reading %q" [.str ProcModules]))
      | none => (some mods, none)

/-- Modelled from the spec: the load states (the type `modState` is declared
outside the source files): "one value from a small closed enumeration (e.g.,
Live, Loading, Unloading)". -/
inductive modState where
  | Live
  | Loading
  | Unloading
  deriving DecidableEq, Repr

instance : Inhabited modState := ⟨modState.Live⟩

/-- Modelled from the spec: the decoder `parseState`, not among the source
files: "Field 5 decodes against the closed load-state enumeration; any other
text is an `UnknownState` error".  Only the worked examples use it; the
theorems hold for every decoder. -/
def parseState (s : GoString) : modState × Option GoError :=
  if s = utf8 "Live" then (modState.Live, none)
  else if s = utf8 "Loading" then (modState.Loading, none)
  else if s = utf8 "Unloading" then (modState.Unloading, none)
  else (default, some (.errorf "UnknownState %q" [.str s]))

/-! ## Field 4, as the specification words it -/

/-- The text `s` without a single trailing `","`, when it ends with one. -/
def stripOneDelim (s : GoString) : GoString :=
  if s.getLast? = some ','.toNat then s.dropLast else s

/-- The decoding of field 4 in the words of the specification: `"-"` is the
empty sequence; otherwise a single trailing delimiter is removed, if there
is one, and the remainder is split on the delimiter. -/
def splitDepsSpec (s : GoString) : List GoString :=
  if s = noDeps then [] else stringsSplit (stripOneDelim s) delimDeps

/-! ## Numerals, as the specification understands them -/

/-- The digits of a numeral in the order of their values, lower case. -/
def digitsLower : List Nat := "0123456789abcdefghijklmnopqrstuvwxyz".toList.map Char.toNat

/-- The digits of a numeral in the order of their values, upper case. -/
def digitsUpper : List Nat := "0123456789ABCDEFGHIJKLMNOPQRSTUVWXYZ".toList.map Char.toNat

/-- The value of the character `c` as a digit of base `base` (at most 36), in
either case; `none` when `c` is not a digit of that base. -/
def digitValue (base : Nat) (c : Nat) : Option Nat :=
  if min (digitsLower.indexOf c) (digitsUpper.indexOf c) < base then
    some (min (digitsLower.indexOf c) (digitsUpper.indexOf c))
  else none

/-- A numeral of base `base`: a non-empty text of digits of that base. -/
def isNumeral (base : Nat) (cs : GoString) : Prop :=
  cs ≠ [] ∧ ∀ c ∈ cs, (digitValue base c).isSome = true

instance (base : Nat) (cs : GoString) : Decidable (isNumeral base cs) := by
  unfold isNumeral
  exact inferInstance

/-- The value of a numeral: its digits, the last one the least significant. -/
def numeralValue (base : Nat) (cs : GoString) : Nat :=
  Nat.ofDigits base (cs.reverse.map fun c => (digitValue base c).getD 0)

/-! ## The flag table, as the specification lists it -/

/-- The 18 flag letters, in the order of their bits. -/
def flagLetters : List Rune := "PFSRMBUDAWCIOELKXT".toList.map Char.toNat

/-- The bit value of a flag letter: `2 ^ i` for the `i`-th of the 18 letters,
and 0 for a rune that is no flag letter. -/
def flagBit (c : Rune) : modTainted :=
  if c ∈ flagLetters then 2 ^ flagLetters.indexOf c else 0

/-- The first rune of a list that is no flag letter. -/
def firstUnknown (cs : List Rune) : Option Rune := cs.find? fun c => decide (c ∉ flagLetters)

/-- The bitwise OR of `combined` and the bit values of the runes `cs`. -/
def orBits (combined : modTainted) (cs : List Rune) : modTainted :=
  cs.foldl (fun a c => a ||| flagBit c) combined

/-- The letters `String` writes for `t` when its loop visits the entries in
the order `iter`. -/
def setLetters (iter : List (modTainted × GoString)) (t : modTainted) : List Rune :=
  (iter.filter fun e => decide (t &&& e.1 ≠ 0)).map fun e => e.2.getD 1 0

/-! ## Items of a dependency field -/

/-- The text `x` is one of the comma-delimited items of the text `s`: it
holds no comma, and it stands in `s` between the start of `s` or a comma and
a comma or the end of `s`. -/
def isItem (x s : GoString) : Prop :=
  ','.toNat ∉ x ∧ ∃ pre post, s = pre ++ x ++ post
    ∧ (pre = [] ∨ pre.getLast? = some ','.toNat)
    ∧ (post = [] ∨ post.head? = some ','.toNat)

/-! ## Lines that decode, as the specification understands them -/

/-- The map orders used where a statement needs some fixed ones: the order
of the source, for every loop. -/
def sourceOrder : Nat → List (GoString × modTainted) := fun _ => taintFlagMap

/-- Fields 2, 3, 5 and 6 decode, and so does field 7 when there are seven
fields. -/
def fieldsDecode {σ : Type} (parseState : GoString → σ × Option GoError)
    (ord : Nat → List (GoString × modTainted)) (fields : List GoString) : Prop :=
  (parseUint (fields.getD 1 [])).2 = none
    ∧ (parseUint (fields.getD 2 [])).2 = none
    ∧ (parseState (fields.getD 4 [])).2 = none
    ∧ (parseUint (fields.getD 5 [])).2 = none
    ∧ (fields.length = 7 → (parseTainted ord (fields.getD 6 [])).2 = none)

/-- The line has 6 or 7 fields and all its fields decode. -/
def lineDecodes {σ : Type} (parseState : GoString → σ × Option GoError) (line : GoString) :
    Prop :=
  6 ≤ (stringsFields line).length ∧ (stringsFields line).length ≤ 7
    ∧ fieldsDecode parseState sourceOrder (stringsFields line)

/-- The record that the fields of a line describe: each field decoded by its
decoder, and the bitmask 0 when there is no seventh field. -/
def recordOf {σ : Type} (parseState : GoString → σ × Option GoError)
    (ord : Nat → List (GoString × modTainted)) (fields : List GoString) : ModInfo σ :=
  { Mem := (parseUint (fields.getD 1 [])).1
    Instances := (parseUint (fields.getD 2 [])).1
    Depends := splitDeps (fields.getD 3 [])
    State := (parseState (fields.getD 4 [])).1
    Offset := (parseUint (fields.getD 5 [])).1
    Tainted := if fields.length = 7 then (parseTainted ord (fields.getD 6 [])).1 else 0 }

/-- The first field of a line: the key under which `parse` stores it. -/
def lineName (line : GoString) : GoString := (stringsFields line).getD 0 []

/-- The record a line describes. -/
def lineRecord {σ : Type} (parseState : GoString → σ × Option GoError) (line : GoString) :
    ModInfo σ :=
  recordOf parseState sourceOrder (stringsFields line)

/-! # Theorems -/

/-! ## Lemmas: strings -/

theorem encodeRune_ascii {r : Rune} (h : r ≤ 0x7F) : encodeRune r = [r] := by
  simp [encodeRune, h]

theorem runesAux_ascii (s : GoString) (h : ∀ b ∈ s, b < 0x80) :
    ∀ fuel, s.length ≤ fuel → runesAux fuel s = s := by
  induction s with
  | nil => intro fuel _; cases fuel <;> rfl
  | cons b rest ih =>
    intro fuel hf
    have hb : b < 0x80 := h b (List.mem_cons_self _ _)
    cases fuel with
    | zero => simp at hf
    | succ fuel =>
      have hd : decodeRune (b :: rest) = (b, 1) := by simp [decodeRune, hb]
      rw [runesAux, hd]
      simp only [List.drop_succ_cons, List.drop_zero]
      rw [ih (fun x hx => h x (List.mem_cons_of_mem _ hx)) fuel (by simpa using hf)]

/-- A range loop over a string of ASCII bytes visits the bytes themselves. -/
theorem runes_ascii (s : GoString) (h : ∀ b ∈ s, b < 0x80) : runes s = s :=
  runesAux_ascii s h s.length (Nat.le_refl _)

theorem decodeRune_size (b : Nat) (rest : GoString) : 1 ≤ (decodeRune (b :: rest)).2 := by
  unfold decodeRune
  repeat' split
  all_goals first | (simp; done) | simp_all

/-- The bound of the range loop is never what ends it: any bound from
`len(s)` on gives the same runes. -/
theorem runesAux_fuel : ∀ (fuel : Nat) (s : GoString), s.length ≤ fuel →
    runesAux fuel s = runes s := by
  intro fuel
  induction fuel using Nat.strong_induction_on with
  | _ fuel ih =>
    intro s hlen
    cases s with
    | nil => cases fuel <;> rfl
    | cons b rest =>
      obtain ⟨f, rfl⟩ : ∃ f, fuel = f + 1 := ⟨fuel - 1, by simp at hlen; omega⟩
      have hsz := decodeRune_size b rest
      have hdrop : ((b :: rest).drop (decodeRune (b :: rest)).2).length ≤ rest.length := by
        rw [List.length_drop, List.length_cons]
        omega
      unfold runes
      rw [List.length_cons, runesAux, runesAux]
      simp only [List.length_cons] at hlen
      rw [ih f (by omega) _ (by omega), ih rest.length (by omega) _ hdrop]

theorem runes_cons_ascii (b : Nat) (rest : GoString) (hb : b < 0x80) :
    runes (b :: rest) = b :: runes rest := by
  unfold runes
  rw [List.length_cons, runesAux]
  have hd : decodeRune (b :: rest) = (b, 1) := by simp [decodeRune, hb]
  rw [hd]
  simp

theorem runesAux_length : ∀ (fuel : Nat) (s : GoString), (runesAux fuel s).length ≤ fuel := by
  intro fuel
  induction fuel with
  | zero => intro s; simp [runesAux]
  | succ fuel ih =>
    intro s
    cases s with
    | nil => simp [runesAux]
    | cons b rest =>
      rw [runesAux, List.length_cons]
      exact Nat.succ_le_succ (ih _)

/-- A text has at most as many characters as bytes. -/
theorem runes_length_le (s : GoString) : (runes s).length ≤ s.length :=
  runesAux_length s.length s

theorem runes_ne_nil (s : GoString) (h : s ≠ []) : runes s ≠ [] := by
  cases s with
  | nil => exact absurd rfl h
  | cons b rest =>
    unfold runes
    rw [List.length_cons, runesAux]
    simp

/-- A text wrapped in parentheses has at least two characters. -/
theorem runes_wrapped_length (body : GoString) : 2 ≤ (runes (40 :: (body ++ [41]))).length := by
  rw [runes_cons_ascii 40 _ (by decide), List.length_cons]
  have := List.length_pos.2 (runes_ne_nil (body ++ [41]) (by simp))
  omega

theorem or_ge_left (a b n : Nat) (h : 2 ^ n ≤ a) : 2 ^ n ≤ a ||| b := by
  obtain ⟨i, hi, hbit⟩ := Nat.ge_two_pow_implies_high_bit_true h
  have : (a ||| b).testBit i = true := by rw [Nat.testBit_or, hbit, Bool.true_or]
  exact (Nat.pow_le_pow_right (by decide) hi).trans (Nat.testBit_implies_ge this)

theorem or_ge_right (a b n : Nat) (h : 2 ^ n ≤ b) : 2 ^ n ≤ a ||| b := by
  rw [Nat.lor_comm]
  exact or_ge_left b a n h

theorem shiftLeft_ge (x k : Nat) (hx : 2 ≤ x) (hk : 6 ≤ k) : 2 ^ 7 ≤ x <<< k := by
  rw [Nat.shiftLeft_eq]
  have h1 : 2 ^ 6 ≤ 2 ^ k := Nat.pow_le_pow_right (by decide) hk
  calc 2 ^ 7 = 2 * 2 ^ 6 := by decide
    _ ≤ x * 2 ^ k := Nat.mul_le_mul hx h1

theorem shiftLeft_ge_one (x k : Nat) (hx : 1 ≤ x) (hk : 7 ≤ k) : 2 ^ 7 ≤ x <<< k := by
  rw [Nat.shiftLeft_eq]
  have h1 : 2 ^ 7 ≤ 2 ^ k := Nat.pow_le_pow_right (by decide) hk
  calc 2 ^ 7 = 1 * 2 ^ 7 := by decide
    _ ≤ x * 2 ^ k := Nat.mul_le_mul hx h1

set_option maxRecDepth 100000 in
theorem lead2_bits : ∀ b < 0xE0, 0xC2 ≤ b → 2 ≤ b &&& 0x1F := by decide

set_option maxRecDepth 100000 in
theorem lead3_bits : ∀ b < 0xF0, 0xE1 ≤ b → 1 ≤ b &&& 0x0F := by decide

set_option maxRecDepth 100000 in
theorem lead4_bits : ∀ b < 0xF5, 0xF1 ≤ b → 1 ≤ b &&& 0x07 := by decide

set_option maxRecDepth 100000 in
theorem second_bits : ∀ b < 0xC0, 0x90 ≤ b → 2 ≤ b &&& 0x3F := by decide

theorem firstByte_some (b sz lo hi : Nat) (h : firstByte b = some (sz, lo, hi)) :
    0x80 ≤ lo ∧ hi ≤ 0xBF ∧
    ((sz = 2 ∧ 0xC2 ≤ b ∧ b < 0xE0) ∨ (sz = 3 ∧ b = 0xE0 ∧ lo = 0xA0)
      ∨ (sz = 3 ∧ 0xE1 ≤ b ∧ b < 0xF0) ∨ (sz = 4 ∧ b = 0xF0 ∧ lo = 0x90)
      ∨ (sz = 4 ∧ 0xF1 ≤ b ∧ b < 0xF5)) := by
  unfold firstByte at h
  split_ifs at h <;> simp only [Option.some.injEq, Prod.mk.injEq, reduceCtorEq] at h <;>
    obtain ⟨rfl, rfl, rfl⟩ := h <;> refine ⟨by omega, by omega, ?_⟩ <;> omega

/-- A sequence that does not start with an ASCII byte is never read as an
ASCII rune. -/
theorem decodeRune_ge (b : Nat) (rest : GoString) (hb : 0x80 ≤ b) :
    0x80 ≤ (decodeRune (b :: rest)).1 := by
  have h7 : (0x80 : Nat) = 2 ^ 7 := by decide
  have herr : 0x80 ≤ RuneError := by decide
  unfold decodeRune
  dsimp only
  rw [if_neg (by omega)]
  split
  · exact herr
  · exact herr
  · rename_i sz lo hi b1 rest1 hfb
    obtain ⟨hlo, hhi, hcase⟩ := firstByte_some b sz lo hi hfb
    split
    · exact herr
    · rename_i h1
      have hb1 : lo ≤ b1 ∧ b1 ≤ hi := by omega
      split
      · rw [h7]
        apply or_ge_left
        apply shiftLeft_ge _ _ _ (by omega)
        rcases hcase with h | h | h | h | h
        · exact lead2_bits b h.2.2 h.2.1
        all_goals omega
      · split
        · exact herr
        · split
          · exact herr
          · split
            · rw [h7]
              apply or_ge_left
              rcases hcase with h | h | h | h | h
              · omega
              · apply or_ge_right
                apply shiftLeft_ge _ _ _ (by omega)
                exact second_bits b1 (by omega) (by omega)
              · apply or_ge_left
                exact shiftLeft_ge_one _ _ (lead3_bits b h.2.2 h.2.1) (by omega)
              all_goals omega
            · split
              · exact herr
              · split
                · exact herr
                · rw [h7]
                  apply or_ge_left
                  apply or_ge_left
                  rcases hcase with h | h | h | h | h
                  · omega
                  · omega
                  · omega
                  · apply or_ge_right
                    apply shiftLeft_ge _ _ _ (by omega)
                    exact second_bits b1 (by omega) (by omega)
                  · apply or_ge_left
                    exact shiftLeft_ge_one _ _ (lead4_bits b h.2.2 h.2.1) (by omega)

/-- When every rune of a text is an ASCII rune, the runes are the bytes. -/
theorem runes_eq_self (s : GoString) (h : ∀ r ∈ runes s, r < 0x80) : runes s = s := by
  induction s with
  | nil => rfl
  | cons b rest ih =>
    have hhead : (decodeRune (b :: rest)).1 < 0x80 := by
      apply h
      unfold runes
      rw [List.length_cons, runesAux]
      exact List.mem_cons_self _ _
    have hb : b < 0x80 := by
      by_contra hge
      exact absurd hhead (Nat.not_lt.2 (decodeRune_ge b rest (by omega)))
    rw [runes_cons_ascii b rest hb] at h ⊢
    rw [ih (fun r hr => h r (List.mem_cons_of_mem _ hr))]

theorem intercalate_nil_singletons (l : List Nat) :
    ([] : List Nat).intercalate (l.map fun b => [b]) = l := by
  induction l with
  | nil => rfl
  | cons a l ih =>
    cases l with
    | nil => rfl
    | cons b l =>
      simp only [List.intercalate, List.map_cons, List.intersperse_cons₂, List.flatten_cons,
        List.nil_append, List.singleton_append] at ih ⊢
      rw [ih]

/-! ## Lemmas: the tables -/

theorem taintFlagMap_entries : ∀ e ∈ taintFlagMap,
    e.1.length = 3 ∧ e.1.getD 1 0 ∈ flagLetters ∧ e.2 = flagBit (e.1.getD 1 0)
      ∧ e.1.getD 1 0 < 0x80 ∧ e.1 = [40, e.1.getD 1 0, 41] := by
  decide

theorem flagLetters_covered : ∀ c ∈ flagLetters, ∃ e ∈ taintFlagMap, e.1.getD 1 0 = c := by
  decide

theorem flagLetters_bits : ∀ c ∈ flagLetters, ∃ i < 18, flagBit c = 2 ^ i := by
  decide

theorem bits_flagLetters : ∀ i < 18, ∃ c ∈ flagLetters, flagBit c = 2 ^ i := by
  decide

theorem taintFlagMap_vals_nodup : (taintFlagMap.map fun e => e.2).Nodup := by
  decide

theorem mapSet_new {κ ν : Type} [DecidableEq κ] (m : List (κ × ν)) (k : κ) (v : ν)
    (h : ∀ a ∈ m, a.1 ≠ k) : mapSet m k v = m ++ [(k, v)] := by
  unfold mapSet
  rw [if_neg]
  intro hany
  obtain ⟨a, ha, hk⟩ := List.any_eq_true.1 hany
  exact h a ha (of_decide_eq_true hk)

theorem foldl_mapSet_new (order : List (GoString × modTainted)) :
    ∀ acc : List (modTainted × GoString),
      (order.map fun e => e.2).Nodup → (∀ e ∈ order, ∀ a ∈ acc, a.1 ≠ e.2) →
      order.foldl (fun m e => mapSet m e.2 e.1) acc = acc ++ order.map fun e => (e.2, e.1) := by
  induction order with
  | nil => intro acc _ _; simp
  | cons e rest ih =>
    intro acc hnd hacc
    rw [List.map_cons, List.nodup_cons] at hnd
    rw [List.foldl_cons, mapSet_new acc e.2 e.1 (hacc e (List.mem_cons_self _ _)), ih _ hnd.2]
    · simp
    · intro e1 he1 a ha
      rcases List.mem_append.1 ha with ha | ha
      · exact hacc e1 (List.mem_cons_of_mem _ he1) a ha
      · simp only [List.mem_singleton] at ha
        subst ha
        intro heq
        exact hnd.1 (List.mem_map.2 ⟨e1, he1, heq.symm⟩)

/-- Whatever the order in which `init` visits the forward table, it stores
each entry with key and value exchanged. -/
theorem init_eq_map (order : List (GoString × modTainted)) (h : order.Perm taintFlagMap) :
    init order = order.map fun e => (e.2, e.1) := by
  have hnd : (order.map fun e => e.2).Nodup :=
    (List.Perm.nodup_iff (h.map _)).2 taintFlagMap_vals_nodup
  simpa using foldl_mapSet_new order [] hnd (by simp)

/-- The entries the loop of `String` visits are the entries of the forward
table, exchanged. -/
theorem mem_iter_iff (order : List (GoString × modTainted)) (h : order.Perm taintFlagMap)
    (iter : List (modTainted × GoString)) (hi : iter.Perm (init order))
    (e : modTainted × GoString) : e ∈ iter ↔ (e.2, e.1) ∈ taintFlagMap := by
  rw [hi.mem_iff, init_eq_map order h, List.mem_map]
  constructor
  · rintro ⟨a, ha, rfl⟩
    exact (h.mem_iff).1 ha
  · intro he
    exact ⟨(e.2, e.1), (h.mem_iff).2 he, rfl⟩

/-! ## Lemmas: `parseTainted` -/

theorem findFlag_none (c : Rune) (combined : modTainted) (l : List (GoString × modTainted))
    (h : ∀ e ∈ l, ¬ (e.1.length = 3 ∧ e.1.getD 1 0 = c)) :
    findFlag c combined l = (combined, false) := by
  induction l with
  | nil => rfl
  | cons e rest ih =>
    obtain ⟨str, val⟩ := e
    rw [findFlag, if_neg (h (str, val) (List.mem_cons_self _ _))]
    exact ih fun e he => h e (List.mem_cons_of_mem _ he)

theorem findFlag_some (c : Rune) (combined v : modTainted) (l : List (GoString × modTainted))
    (hv : ∀ e ∈ l, e.1.length = 3 ∧ e.1.getD 1 0 = c → e.2 = v)
    (hex : ∃ e ∈ l, e.1.length = 3 ∧ e.1.getD 1 0 = c) :
    findFlag c combined l = (combined ||| v, true) := by
  induction l with
  | nil => simp at hex
  | cons e rest ih =>
    obtain ⟨str, val⟩ := e
    by_cases hm : str.length = 3 ∧ str.getD 1 0 = c
    · rw [findFlag, if_pos hm, ← hv (str, val) (List.mem_cons_self _ _) hm]
    · rw [findFlag, if_neg hm]
      apply ih (fun e he => hv e (List.mem_cons_of_mem _ he))
      obtain ⟨e, he, hme⟩ := hex
      rcases List.mem_cons.1 he with rfl | he
      · exact absurd hme hm
      · exact ⟨e, he, hme⟩

/-- The inner loop of `parseTainted`, whatever the order of the map: a flag
letter adds its bit, any other rune is not found. -/
theorem findFlag_perm (c : Rune) (combined : modTainted) (l : List (GoString × modTainted))
    (h : l.Perm taintFlagMap) :
    findFlag c combined l =
      if c ∈ flagLetters then (combined ||| flagBit c, true) else (combined, false) := by
  by_cases hc : c ∈ flagLetters
  · rw [if_pos hc]
    apply findFlag_some
    · rintro e he ⟨_, rfl⟩
      exact (taintFlagMap_entries e (h.mem_iff.1 he)).2.2.1
    · obtain ⟨e, he, hce⟩ := flagLetters_covered c hc
      exact ⟨e, h.mem_iff.2 he, (taintFlagMap_entries e he).1, hce⟩
  · rw [if_neg hc]
    apply findFlag_none
    rintro e he ⟨_, rfl⟩
    exact hc (taintFlagMap_entries e (h.mem_iff.1 he)).2.1

/-- The outer loop of `parseTainted`, whatever the orders of the map. -/
theorem parseTaintedLoop_eq (ord : Nat → List (GoString × modTainted))
    (hord : ∀ k, (ord k).Perm taintFlagMap) (cs : List Rune) :
    ∀ k combined, parseTaintedLoop ord k combined cs =
      match firstUnknown cs with
      | some c => (0, some (.errorf "unknown tainted flag (%c)" [.rune c]))
      | none => (orBits combined cs, none) := by
  induction cs with
  | nil => intro k combined; rfl
  | cons c cs ih =>
    intro k combined
    rw [parseTaintedLoop, findFlag_perm c combined (ord k) (hord k)]
    by_cases hc : c ∈ flagLetters
    · simp only [if_pos hc]
      rw [ih]
      simp [firstUnknown, orBits, hc]
    · simp only [if_neg hc]
      simp [firstUnknown, hc]

/-! ## Lemmas: `String` -/

theorem foldl_chars (t : modTainted) (iter : List (modTainted × GoString)) :
    ∀ acc : List GoString,
      iter.foldl
        (fun chars e => if t &&& e.1 ≠ 0 then chars ++ [encodeRune (e.2.getD 1 0)] else chars)
        acc
      = acc ++ (iter.filter fun e => decide (t &&& e.1 ≠ 0)).map
          fun e => encodeRune (e.2.getD 1 0) := by
  induction iter with
  | nil => intro acc; simp
  | cons e rest ih =>
    intro acc
    rw [List.foldl_cons, ih]
    by_cases h : t &&& e.1 ≠ 0
    · simp [h]
    · simp [h]

/-- The text `String` returns, when every letter of the visited entries is
an ASCII byte (as all letters of the table are). -/
theorem String_eq (iter : List (modTainted × GoString))
    (hascii : ∀ e ∈ iter, e.2.getD 1 0 < 0x80) (t : modTainted) :
    modTainted.String iter t = 40 :: (setLetters iter t ++ [41]) := by
  unfold modTainted.String
  by_cases h0 : t = TaintedNone
  · rw [if_pos h0]
    have ht : t = 0 := h0
    subst ht
    have : setLetters iter 0 = [] := by simp [setLetters]
    rw [this]
    decide
  · rw [if_neg h0]
    simp only
    rw [foldl_chars, List.nil_append]
    have hmap : (iter.filter fun e => decide (t &&& e.1 ≠ 0)).map
          (fun e => encodeRune (e.2.getD 1 0))
        = (setLetters iter t).map fun b => [b] := by
      rw [setLetters, List.map_map]
      apply List.map_congr_left
      intro e he
      have := hascii e (List.mem_of_mem_filter he)
      exact encodeRune_ascii (Nat.le_of_lt_succ this)
    rw [hmap, intercalate_nil_singletons]
    have h1 : utf8 "(" = [40] := by decide
    have h2 : utf8 ")" = [41] := by decide
    rw [h1, h2]
    rfl

theorem and_two_pow_ne_zero (m i : Nat) : m &&& 2 ^ i ≠ 0 ↔ m.testBit i = true := by
  constructor
  · intro h
    by_contra hb
    apply h
    apply Nat.eq_of_testBit_eq
    intro k
    rw [Nat.testBit_and, Nat.testBit_two_pow, Nat.zero_testBit]
    by_cases hik : i = k
    · subst hik; simp [hb]
    · simp [hik]
  · intro h h0
    have := Nat.testBit_and m (2 ^ i) i
    rw [h0, Nat.zero_testBit, h, Nat.testBit_two_pow_self] at this
    simp at this

theorem testBit_orBits (j : Nat) (cs : List Rune) : ∀ combined : modTainted,
    (orBits combined cs).testBit j
      = (combined.testBit j || cs.any fun c => (flagBit c).testBit j) := by
  induction cs with
  | nil => intro combined; simp [orBits]
  | cons c cs ih =>
    intro combined
    have := ih (combined ||| flagBit c)
    simp only [orBits, List.foldl_cons] at this ⊢
    rw [this, Nat.testBit_or, List.any_cons, Bool.or_assoc]

/-- The bits of the letters `String` writes are the bits of `t` below
`2 ^ 18`. -/
theorem orBits_setLetters (iter : List (modTainted × GoString))
    (hiter : ∀ e, e ∈ iter ↔ (e.2, e.1) ∈ taintFlagMap) (t : modTainted) :
    orBits 0 (setLetters iter t) = t % 2 ^ 18 := by
  apply Nat.eq_of_testBit_eq
  intro j
  rw [testBit_orBits, Nat.zero_testBit, Bool.false_or, Nat.testBit_mod_two_pow]
  apply Bool.eq_iff_iff.2
  simp only [List.any_eq_true, Bool.and_eq_true, decide_eq_true_eq, setLetters, List.mem_map,
    List.mem_filter]
  constructor
  · rintro ⟨c, ⟨e, ⟨he, hne⟩, rfl⟩, hbit⟩
    have hT := taintFlagMap_entries _ ((hiter e).1 he)
    simp only at hT
    obtain ⟨i, hi, hpow⟩ := flagLetters_bits _ hT.2.1
    rw [hpow, Nat.testBit_two_pow] at hbit
    have hij : i = j := by simpa using hbit
    subst hij
    rw [hT.2.2.1, hpow] at hne
    exact ⟨hi, (and_two_pow_ne_zero t i).1 hne⟩
  · rintro ⟨hj, hbit⟩
    obtain ⟨c, hc, hpow⟩ := bits_flagLetters j hj
    obtain ⟨e, he, rfl⟩ := flagLetters_covered c hc
    have hT := taintFlagMap_entries e he
    refine ⟨e.1.getD 1 0, ⟨(e.2, e.1), ⟨(hiter (e.2, e.1)).2 he, ?_⟩, rfl⟩, ?_⟩
    · simp only
      rw [hT.2.2.1, hpow]
      exact (and_two_pow_ne_zero t j).2 hbit
    · rw [hpow, Nat.testBit_two_pow_self]

/-! ## Lemmas: wrapped texts -/

theorem slice_wrapped (body : GoString) :
    slice (40 :: (body ++ [41])) 1 ((40 :: (body ++ [41])).length - 1) = body := by
  simp [slice]

/-- The guard of `parseTainted` lets exactly the texts `"(" + body + ")"`
through. -/
theorem guard_iff (s : GoString) :
    ¬ (s.length < 2 ∨ s.getD 0 0 ≠ '('.toNat ∨ s.getD (s.length - 1) 0 ≠ ')'.toNat)
      ↔ ∃ body, s = 40 :: (body ++ [41]) := by
  have h40 : '('.toNat = 40 := by decide
  have h41 : ')'.toNat = 41 := by decide
  rw [h40, h41]
  constructor
  · intro h
    simp only [not_or, not_lt, ne_eq, not_not] at h
    obtain ⟨hlen, hfirst, hlast⟩ := h
    cases s with
    | nil => simp at hlen
    | cons a t =>
      simp only [List.getD_cons_zero] at hfirst
      subst hfirst
      have ht : t ≠ [] := by
        intro h0
        subst h0
        simp at hlen
      refine ⟨t.dropLast, ?_⟩
      have hl : t.getLast ht = 41 := by
        rw [List.getLast_eq_getElem]
        simp only [List.length_cons, Nat.add_sub_cancel] at hlast
        have hpos : 0 < t.length := List.length_pos.2 ht
        have : (40 :: t).getD t.length 0 = t.getD (t.length - 1) 0 := by
          obtain ⟨n, hn⟩ : ∃ n, t.length = n + 1 := ⟨t.length - 1, by omega⟩
          rw [hn]
          simp
        rw [this] at hlast
        rw [List.getD_eq_getElem _ _ (by omega)] at hlast
        exact hlast
      rw [← hl, List.dropLast_append_getLast ht]
  · rintro ⟨body, rfl⟩
    simp only [not_or, not_lt, ne_eq, not_not]
    refine ⟨by simp, by simp, ?_⟩
    simp only [List.length_cons, List.length_append, List.length_nil, Nat.add_sub_cancel]
    rw [List.getD_cons_succ, List.getD_append_right _ _ _ _ (by simp)]
    simp

/-- A text starts with `(`, ends with `)` and has at least two bytes exactly
when it is `"(" + body + ")"`. -/
theorem wrapped_iff (s : GoString) :
    (2 ≤ s.length ∧ s.head? = some 40 ∧ s.getLast? = some 41)
      ↔ ∃ body, s = 40 :: (body ++ [41]) := by
  constructor
  · rintro ⟨hlen, hhead, hlast⟩
    obtain ⟨t, rfl⟩ := List.head?_eq_some_iff.1 hhead
    obtain ⟨ys, hys⟩ := List.getLast?_eq_some_iff.1 hlast
    cases ys with
    | nil =>
      simp only [List.nil_append, List.cons.injEq] at hys
      obtain ⟨_, rfl⟩ := hys
      simp at hlen
    | cons y ys =>
      simp only [List.cons_append, List.cons.injEq] at hys
      exact ⟨ys, by rw [hys.2]⟩
  · rintro ⟨body, rfl⟩
    refine ⟨by simp, by simp, ?_⟩
    rw [← List.cons_append, List.getLast?_concat]

theorem parseTainted_wrapped (ord : Nat → List (GoString × modTainted)) (body : GoString) :
    parseTainted ord (40 :: (body ++ [41])) = parseTaintedLoop ord 0 0 (runes body) := by
  unfold parseTainted
  rw [if_neg ((guard_iff _).2 ⟨body, rfl⟩), slice_wrapped]

theorem parseTainted_not_wrapped (ord : Nat → List (GoString × modTainted)) (s : GoString)
    (h : ¬ ∃ body, s = 40 :: (body ++ [41])) :
    parseTainted ord s = (0, some (.errorf "invalid format: %q" [.str s])) := by
  unfold parseTainted
  rw [if_pos]
  by_contra hg
  exact h ((guard_iff s).1 hg)

/-! ## Lemmas: the letters `String` writes -/

theorem flagLetters_nodup : flagLetters.Nodup := by decide

theorem flagBit_injOn : ∀ c ∈ flagLetters, ∀ d ∈ flagLetters, flagBit c = flagBit d → c = d := by
  decide

theorem taintFlagMap_letters_nodup : (taintFlagMap.map fun e => e.1.getD 1 0).Nodup := by
  decide

theorem flagLetters_ascii : ∀ c ∈ flagLetters, c < 0x80 := by decide

theorem iter_ascii (iter : List (modTainted × GoString))
    (hiter : ∀ e, e ∈ iter ↔ (e.2, e.1) ∈ taintFlagMap) : ∀ e ∈ iter, e.2.getD 1 0 < 0x80 :=
  fun e he => (taintFlagMap_entries _ ((hiter e).1 he)).2.2.2.1

theorem mem_setLetters_iff (iter : List (modTainted × GoString))
    (hiter : ∀ e, e ∈ iter ↔ (e.2, e.1) ∈ taintFlagMap) (t : modTainted) (c : Rune) :
    c ∈ setLetters iter t ↔ c ∈ flagLetters ∧ t &&& flagBit c ≠ 0 := by
  simp only [setLetters, List.mem_map, List.mem_filter, decide_eq_true_eq]
  constructor
  · rintro ⟨e, ⟨he, hne⟩, rfl⟩
    have hT := taintFlagMap_entries _ ((hiter e).1 he)
    simp only at hT
    exact ⟨hT.2.1, by rw [← hT.2.2.1]; exact hne⟩
  · rintro ⟨hc, hne⟩
    obtain ⟨e, he, rfl⟩ := flagLetters_covered c hc
    have hT := taintFlagMap_entries e he
    exact ⟨(e.2, e.1), ⟨(hiter _).2 he, by simp only; rw [hT.2.2.1]; exact hne⟩, rfl⟩

theorem setLetters_nodup (order : List (GoString × modTainted)) (h : order.Perm taintFlagMap)
    (iter : List (modTainted × GoString)) (hi : iter.Perm (init order)) (t : modTainted) :
    (setLetters iter t).Nodup := by
  have hperm : (iter.map fun e => e.2.getD 1 0).Perm (taintFlagMap.map fun e => e.1.getD 1 0) := by
    have h1 := hi.map fun e => e.2.getD 1 0
    rw [init_eq_map order h, List.map_map] at h1
    exact h1.trans (h.map _)
  have hnd : (iter.map fun e => e.2.getD 1 0).Nodup :=
    (List.Perm.nodup_iff hperm).2 taintFlagMap_letters_nodup
  exact List.Nodup.sublist (List.Sublist.map _ (List.filter_sublist _)) hnd

theorem firstUnknown_eq_none_iff (cs : List Rune) :
    firstUnknown cs = none ↔ ∀ c ∈ cs, c ∈ flagLetters := by
  simp [firstUnknown]

/-- A flag letter has its bit set in the OR of the bits of `cs` exactly when
it occurs in `cs`. -/
theorem orBits_and_flagBit (cs : List Rune) (hcs : ∀ x ∈ cs, x ∈ flagLetters)
    (c : Rune) (hc : c ∈ flagLetters) :
    orBits 0 cs &&& flagBit c ≠ 0 ↔ c ∈ cs := by
  obtain ⟨i, _, hpow⟩ := flagLetters_bits c hc
  rw [hpow, and_two_pow_ne_zero, testBit_orBits, Nat.zero_testBit, Bool.false_or,
    List.any_eq_true]
  constructor
  · rintro ⟨x, hx, hbit⟩
    obtain ⟨k, _, hxpow⟩ := flagLetters_bits x (hcs x hx)
    rw [hxpow, Nat.testBit_two_pow] at hbit
    have hki : k = i := by simpa using hbit
    have : x = c := flagBit_injOn x (hcs x hx) c hc (by rw [hxpow, hpow, hki])
    rw [← this]
    exact hx
  · intro hmem
    exact ⟨c, hmem, by rw [hpow, Nat.testBit_two_pow_self]⟩

/-- What `parseTainted` returns, whatever the orders of the map. -/
theorem parseTainted_eq (ord : Nat → List (GoString × modTainted))
    (hord : ∀ k, (ord k).Perm taintFlagMap) (body : GoString) :
    parseTainted ord (40 :: (body ++ [41])) =
      match firstUnknown (runes body) with
      | some c => (0, some (.errorf "unknown tainted flag (%c)" [.rune c]))
      | none => (orBits 0 (runes body), none) := by
  rw [parseTainted_wrapped, parseTaintedLoop_eq ord hord]

/-- The OR of the bit values depends only on which runes occur. -/
theorem orBits_congr (cs ds : List Rune) (h : ∀ c, c ∈ cs ↔ c ∈ ds) :
    orBits 0 cs = orBits 0 ds := by
  apply Nat.eq_of_testBit_eq
  intro j
  rw [testBit_orBits, testBit_orBits]
  congr 1
  apply Bool.eq_iff_iff.2
  simp only [List.any_eq_true]
  constructor
  · rintro ⟨x, hx, hb⟩
    exact ⟨x, (h x).1 hx, hb⟩
  · rintro ⟨x, hx, hb⟩
    exact ⟨x, (h x).2 hx, hb⟩

/-- The loop of `parseTainted` returns no error or the unknown-flag error
with value 0, whatever lists stand for the map. -/
theorem parseTaintedLoop_error (ord : Nat → List (GoString × modTainted)) (cs : List Rune) :
    ∀ k combined, (parseTaintedLoop ord k combined cs).2 = none
      ∨ ∃ c, parseTaintedLoop ord k combined cs
          = (0, some (.errorf "unknown tainted flag (%c)" [.rune c])) := by
  induction cs with
  | nil => intro k combined; exact Or.inl rfl
  | cons c cs ih =>
    intro k combined
    rw [parseTaintedLoop]
    rcases hf : findFlag c combined (ord k) with ⟨combined1, found⟩
    cases found with
    | true => exact ih (k + 1) combined1
    | false => exact Or.inr ⟨c, rfl⟩

/-! ## Lemmas: `parseUint` -/

theorem digits_small : (∀ x ∈ digitsLower, x < 128) ∧ (∀ x ∈ digitsUpper, x < 128) := by
  decide

set_option maxRecDepth 100000 in
theorem digitVal_small : ∀ c < 128, digitVal c =
    if min (digitsLower.indexOf c) (digitsUpper.indexOf c) < 36 then
      some (min (digitsLower.indexOf c) (digitsUpper.indexOf c))
    else none := by
  decide

theorem lower_ge (c : Nat) (h : 128 ≤ c) : 128 ≤ lower c := by
  obtain ⟨i, hi, hbit⟩ := Nat.ge_two_pow_implies_high_bit_true (n := 7) h
  have : (lower c).testBit i = true := by
    unfold lower
    rw [Nat.testBit_or, hbit, Bool.true_or]
  have h1 := Nat.testBit_implies_ge this
  have h2 : 2 ^ 7 ≤ 2 ^ i := Nat.pow_le_pow_right (by decide) hi
  omega

/-- The digit read by `strconv.ParseUint` is the digit of the numeral, in
either case. -/
theorem digitVal_eq (c : Nat) : digitVal c =
    if min (digitsLower.indexOf c) (digitsUpper.indexOf c) < 36 then
      some (min (digitsLower.indexOf c) (digitsUpper.indexOf c))
    else none := by
  by_cases hc : c < 128
  · exact digitVal_small c hc
  · have hl : digitsLower.indexOf c = 36 := by
      have : c ∉ digitsLower := fun hmem => hc (digits_small.1 c hmem)
      rw [List.indexOf_eq_length.2 this]
      decide
    have hu : digitsUpper.indexOf c = 36 := by
      have : c ∉ digitsUpper := fun hmem => hc (digits_small.2 c hmem)
      rw [List.indexOf_eq_length.2 this]
      decide
    have hlow := lower_ge c (by omega)
    rw [hl, hu]
    unfold digitVal
    have h0 : ('0'.toNat, '9'.toNat, 'a'.toNat, 'z'.toNat) = (48, 57, 97, 122) := by decide
    simp only [Prod.mk.injEq] at h0
    obtain ⟨h1, h2, h3, h4⟩ := h0
    rw [h1, h2, h3, h4, if_neg (by omega), if_neg (by omega)]
    simp

theorem digitValue_eq (base : Nat) (hb : base ≤ 36) (c : Nat) :
    digitValue base c = (digitVal c).bind fun d => if d < base then some d else none := by
  rw [digitVal_eq]
  unfold digitValue
  by_cases h : min (digitsLower.indexOf c) (digitsUpper.indexOf c) < base
  · have h36 : min (digitsLower.indexOf c) (digitsUpper.indexOf c) < 36 := by omega
    simp [h, h36]
  · by_cases h36 : min (digitsLower.indexOf c) (digitsUpper.indexOf c) < 36
    · simp [h, h36]
    · simp [h, h36]

theorem numeralValue_cons (base c : Nat) (cs : GoString) :
    numeralValue base (c :: cs)
      = (digitValue base c).getD 0 * base ^ cs.length + numeralValue base cs := by
  unfold numeralValue
  rw [List.reverse_cons, List.map_append, Nat.ofDigits_append]
  simp [Nat.ofDigits_singleton, Nat.mul_comm, Nat.add_comm]

theorem bound_step (n base d P v : Nat) :
    n * (P * base) + (d * P + v) = (n * base + d) * P + v := by ring

/-- The loop of `strconv.ParseUint` from the accumulator `n` over the text
`cs`: it ends without error exactly when every byte is a digit of the base
and the number read stays below `2 ^ 64`, and then returns that number. -/
theorem parseUintLoop_spec (s0 : GoString) (base : Nat) (hb2 : 2 ≤ base) (hb : base ≤ 36)
    (cs : GoString) :
    ∀ n, n < 2 ^ 64 →
      ((parseUintLoop s0 base 64 n cs).2 = none ↔
          (∀ c ∈ cs, (digitValue base c).isSome = true)
            ∧ n * base ^ cs.length + numeralValue base cs < 2 ^ 64)
      ∧ ((parseUintLoop s0 base 64 n cs).2 = none →
          (parseUintLoop s0 base 64 n cs).1 = n * base ^ cs.length + numeralValue base cs) := by
  induction cs with
  | nil =>
    intro n hn
    simp [parseUintLoop, numeralValue]
    omega
  | cons c cs ih =>
    intro n hn
    have hP : 1 ≤ base ^ cs.length := Nat.one_le_two_pow.trans (Nat.pow_le_pow_left hb2 _)
    rw [numeralValue_cons, List.forall_mem_cons, digitValue_eq base hb c, List.length_cons,
      Nat.pow_succ]
    cases hd : digitVal c with
    | none => simp [parseUintLoop, hd]
    | some d =>
      by_cases hdb : base ≤ d
      · have : ¬ d < base := by omega
        simp [parseUintLoop, hd, hdb, this]
      · have hlt : d < base := by omega
        by_cases hcut : maxUint64 / base + 1 ≤ n
        · have h1 : maxUint64 < n * base := (Nat.div_lt_iff_lt_mul (by omega)).1 (by omega)
          have h2 : n * base ≤ n * (base ^ cs.length * base) :=
            Nat.mul_le_mul_left n (Nat.le_mul_of_pos_left base (by omega))
          simp only [parseUintLoop, hd, hdb, hcut, if_true, if_false]
          unfold maxUint64 at h1
          simp
          intro _ _
          omega
        · have h1 : n * base ≤ maxUint64 := by
            have : n ≤ maxUint64 / base := by omega
            exact (Nat.le_div_iff_mul_le (by omega)).1 this
          unfold maxUint64 at h1
          have hX : (n * base) % 2 ^ 64 = n * base := Nat.mod_eq_of_lt (by omega)
          simp only [parseUintLoop, hd, hdb, hcut, if_true, if_false, hX]
          have hstep := bound_step n base d (base ^ cs.length) (numeralValue base cs)
          have hle : n * base + d ≤ (n * base + d) * base ^ cs.length :=
            Nat.le_mul_of_pos_right _ (by omega)
          have hbind : ((some d).bind fun d => if d < base then some d else none) = some d := by
            simp [hlt]
          rw [hbind]
          simp only [Option.isSome_some, Option.getD_some, true_and]
          rw [hstep]
          by_cases hov : n * base + d < 2 ^ 64
          · have hn1 : (n * base + d) % 2 ^ 64 = n * base + d := Nat.mod_eq_of_lt hov
            rw [hn1, if_neg (by omega)]
            exact ih (n * base + d) hov
          · have hwrap : (n * base + d) % 2 ^ 64 < n * base := by omega
            rw [if_pos (Or.inl hwrap)]
            simp
            intro _
            omega

/-- The function `strconv.ParseUint` with 64 bits: it succeeds exactly on the
numerals of the base whose value is below `2 ^ 64`, and returns the value. -/
theorem ParseUint_spec (base : Nat) (hb2 : 2 ≤ base) (hb : base ≤ 36) (s : GoString) :
    ((ParseUint s base 64).2 = none ↔ isNumeral base s ∧ numeralValue base s < 2 ^ 64)
    ∧ ((ParseUint s base 64).2 = none → (ParseUint s base 64).1 = numeralValue base s) := by
  unfold ParseUint isNumeral
  by_cases hs : s = []
  · subst hs
    simp
  · rw [if_neg hs]
    have := parseUintLoop_spec s base hb2 hb s 0 (by decide)
    simp only [Nat.zero_mul, Nat.zero_add] at this
    simp only [ne_eq, hs, not_false_eq_true, true_and]
    exact this

theorem utf8_0x : utf8 "0x" = [48, 120] := by decide

theorem hasPrefix_0x_iff (s : GoString) :
    stringsHasPrefix s (utf8 "0x") = true ↔ ∃ rest, s = utf8 "0x" ++ rest := by
  rw [utf8_0x]
  unfold stringsHasPrefix slice
  simp only [decide_eq_true_eq, List.length_cons, List.length_nil, List.drop_zero]
  constructor
  · rintro ⟨_, h⟩
    exact ⟨s.drop 2, by rw [← h, List.take_append_drop]⟩
  · rintro ⟨rest, rfl⟩
    simp

theorem parseUint_hex (rest : GoString) : parseUint (utf8 "0x" ++ rest) = ParseUint rest 16 64 := by
  unfold parseUint
  rw [if_pos ((hasPrefix_0x_iff _).2 ⟨rest, rfl⟩), utf8_0x]
  rfl

theorem parseUint_dec (s : GoString) (h : ¬ ∃ rest, s = utf8 "0x" ++ rest) :
    parseUint s = ParseUint s 10 64 := by
  unfold parseUint
  rw [if_neg (fun hp => h ((hasPrefix_0x_iff s).1 hp))]

/-- A decimal numeral does not begin with `0x`. -/
theorem isNumeral_10_not_0x (s : GoString) (h : isNumeral 10 s) :
    ¬ ∃ rest, s = utf8 "0x" ++ rest := by
  rintro ⟨rest, rfl⟩
  rw [utf8_0x] at h
  have := h.2 120 (by simp)
  revert this
  decide

theorem digitChar_value : ∀ r < 16,
    min (digitsLower.indexOf (Nat.digitChar r).toNat) (digitsUpper.indexOf (Nat.digitChar r).toNat)
      = r := by
  decide

theorem digitValue_digitChar (base : Nat) (hb : base ≤ 16) (r : Nat) (hr : r < base) :
    digitValue base (Nat.digitChar r).toNat = some r := by
  unfold digitValue
  rw [digitChar_value r (by omega), if_pos hr]

theorem toDigitsCore_spec (base : Nat) (hb2 : 2 ≤ base) (hb : base ≤ 16) :
    ∀ fuel n (ds : List Char), n < fuel →
      (∀ c ∈ ds.map Char.toNat, (digitValue base c).isSome = true) →
      (∀ c ∈ (Nat.toDigitsCore base fuel n ds).map Char.toNat, (digitValue base c).isSome = true)
      ∧ Nat.toDigitsCore base fuel n ds ≠ []
      ∧ numeralValue base ((Nat.toDigitsCore base fuel n ds).map Char.toNat)
          = n * base ^ ds.length + numeralValue base (ds.map Char.toNat) := by
  intro fuel
  induction fuel with
  | zero => intro n ds h; omega
  | succ fuel ih =>
    intro n ds hn hds
    have hmod : n % base < base := Nat.mod_lt _ (by omega)
    have hdig := digitValue_digitChar base hb (n % base) hmod
    have hcons : ∀ c ∈ ((n % base).digitChar :: ds).map Char.toNat,
        (digitValue base c).isSome = true := by
      intro c hc
      rw [List.map_cons, List.mem_cons] at hc
      rcases hc with rfl | hc
      · rw [hdig]; rfl
      · exact hds c hc
    have hval : numeralValue base (((n % base).digitChar :: ds).map Char.toNat)
        = (n % base) * base ^ ds.length + numeralValue base (ds.map Char.toNat) := by
      rw [List.map_cons, numeralValue_cons, hdig, List.length_map]
      rfl
    rw [Nat.toDigitsCore]
    by_cases h0 : n / base = 0
    · simp only [h0, if_true]
      refine ⟨hcons, by simp, ?_⟩
      rw [hval]
      have : n % base = n := Nat.mod_eq_of_lt ((Nat.div_eq_zero_iff (by omega)).1 h0)
      rw [this]
    · simp only [h0, if_false]
      have hlt : n / base < fuel := by
        have : n / base < n := Nat.div_lt_self (by
          rcases Nat.eq_zero_or_pos n with h | h
          · subst h; simp at h0
          · exact h) hb2
        omega
      obtain ⟨h1, h2, h3⟩ := ih (n / base) ((n % base).digitChar :: ds) hlt hcons
      refine ⟨h1, h2, ?_⟩
      rw [h3, hval, List.length_cons, Nat.pow_succ, ← Nat.add_assoc]
      congr 1
      have := Nat.div_add_mod n base
      calc n / base * (base ^ ds.length * base) + n % base * base ^ ds.length
          = (base * (n / base) + n % base) * base ^ ds.length := by ring
        _ = n * base ^ ds.length := by rw [this]

/-- The text `Nat.toDigits base n` is a numeral of base `base` with value
`n`: for base 10 the decimal numeral of `n`, for base 16 its hexadecimal
numeral in lower case. -/
theorem toDigits_numeral (base : Nat) (hb2 : 2 ≤ base) (hb : base ≤ 16) (n : Nat) :
    isNumeral base ((Nat.toDigits base n).map Char.toNat)
      ∧ numeralValue base ((Nat.toDigits base n).map Char.toNat) = n := by
  obtain ⟨h1, h2, h3⟩ := toDigitsCore_spec base hb2 hb (n + 1) n [] (by omega) (by simp)
  refine ⟨⟨?_, h1⟩, ?_⟩
  · intro h
    exact h2 (List.map_eq_nil_iff.1 h)
  · rw [Nat.toDigits, h3]
    simp [numeralValue]

/-- Leading zeros do not change a numeral. -/
theorem leading_zeros (base : Nat) (hb : 1 ≤ base) (k : Nat) (cs : GoString)
    (h : isNumeral base cs) :
    isNumeral base (List.replicate k '0'.toNat ++ cs)
      ∧ numeralValue base (List.replicate k '0'.toNat ++ cs) = numeralValue base cs := by
  have h0 : digitValue base '0'.toNat = some 0 := by
    unfold digitValue
    have : min (digitsLower.indexOf '0'.toNat) (digitsUpper.indexOf '0'.toNat) = 0 := by decide
    rw [this, if_pos (by omega)]
  induction k with
  | zero => exact ⟨by simpa using h, by simp⟩
  | succ k ih =>
    rw [List.replicate_succ, List.cons_append]
    refine ⟨⟨by simp, ?_⟩, ?_⟩
    · intro c hc
      rcases List.mem_cons.1 hc with rfl | hc
      · rw [h0]; rfl
      · exact ih.1.2 c hc
    · rw [numeralValue_cons, h0, ih.2]
      simp

/-! ## Lemmas: `splitDeps` -/

theorem stringsIndex_not_mem (x : Nat) (s : GoString) (h : x ∉ s) : stringsIndex [x] s = none := by
  induction s with
  | nil => simp [stringsIndex]
  | cons c cs ih =>
    have hc : x ≠ c := fun e => h (e ▸ List.mem_cons_self _ _)
    have hcs : x ∉ cs := fun e => h (List.mem_cons_of_mem _ e)
    simp [stringsIndex, List.isPrefixOf, hc, ih hcs]

theorem stringsIndex_append (x : Nat) (a b : GoString) (h : x ∉ a) :
    stringsIndex [x] (a ++ x :: b) = some a.length := by
  induction a with
  | nil => simp [stringsIndex, List.isPrefixOf]
  | cons c cs ih =>
    have hc : x ≠ c := fun e => h (e ▸ List.mem_cons_self _ _)
    have hcs : x ∉ cs := fun e => h (List.mem_cons_of_mem _ e)
    simp [stringsIndex, List.isPrefixOf, hc, ih hcs]

/-- Where `Index` finds the one-byte separator. -/
theorem stringsIndex_single (x : Nat) (s : GoString) :
    (x ∉ s ∧ stringsIndex [x] s = none)
      ∨ ∃ a b, s = a ++ x :: b ∧ x ∉ a ∧ stringsIndex [x] s = some a.length := by
  by_cases h : x ∈ s
  · obtain ⟨a, b, hs, ha⟩ := List.eq_append_cons_of_mem h
    exact Or.inr ⟨a, b, hs, ha, by rw [hs]; exact stringsIndex_append x a b ha⟩
  · exact Or.inl ⟨h, stringsIndex_not_mem x s h⟩

theorem genSplit_step (x : Nat) (a b : GoString) (h : x ∉ a) (count : Nat) :
    genSplit [x] (count + 1) (a ++ x :: b) = a :: genSplit [x] count b := by
  rw [genSplit, stringsIndex_append x a b h]
  simp [slice]

theorem genSplit_not_mem (x : Nat) (s : GoString) (h : x ∉ s) (count : Nat) :
    genSplit [x] count s = [s] := by
  cases count with
  | zero => rfl
  | succ count => rw [genSplit, stringsIndex_not_mem x s h]

/-- The bound of the loop of `genSplit` is never what ends it: any bound from
`len(s)` on gives the same pieces. -/
theorem genSplit_fuel (x : Nat) : ∀ (count : Nat) (s : GoString), s.length ≤ count →
    genSplit [x] count s = genSplit [x] s.length s := by
  intro count
  induction count using Nat.strong_induction_on with
  | _ count ih =>
    intro s hlen
    rcases stringsIndex_single x s with ⟨hx, _⟩ | ⟨a, b, rfl, ha, _⟩
    · rw [genSplit_not_mem x s hx, genSplit_not_mem x s hx]
    · have hl : (a ++ x :: b).length = (a.length + b.length) + 1 := by simp; omega
      obtain ⟨c, rfl⟩ : ∃ c, count = c + 1 := ⟨count - 1, by omega⟩
      rw [hl, genSplit_step x a b ha, genSplit_step x a b ha,
        ih c (by omega) b (by omega), ih (a.length + b.length) (by omega) b (by omega)]

/-- Splitting names joined by the separator gives the names back. -/
theorem genSplit_intercalate (x : Nat) (names : List GoString) (hne : names ≠ [])
    (hx : ∀ n ∈ names, x ∉ n) :
    ∀ count, ([x].intercalate names).length ≤ count →
      genSplit [x] count ([x].intercalate names) = names := by
  induction names with
  | nil => exact absurd rfl hne
  | cons n rest ih =>
    intro count hcount
    cases rest with
    | nil =>
      have : [x].intercalate [n] = n := by simp [List.intercalate]
      rw [this]
      exact genSplit_not_mem x n (hx n (List.mem_cons_self _ _)) count
    | cons m rest =>
      have hj : [x].intercalate (n :: m :: rest) = n ++ x :: [x].intercalate (m :: rest) := by
        simp [List.intercalate]
      rw [hj] at hcount ⊢
      obtain ⟨c, rfl⟩ : ∃ c, count = c + 1 := ⟨count - 1, by simp at hcount; omega⟩
      rw [genSplit_step x n _ (hx n (List.mem_cons_self _ _)),
        ih (by simp) (fun k hk => hx k (List.mem_cons_of_mem _ hk)) c
          (by simp at hcount ⊢; omega)]

theorem stringsSplit_intercalate (x : Nat) (names : List GoString) (hne : names ≠ [])
    (hx : ∀ n ∈ names, x ∉ n) : stringsSplit ([x].intercalate names) [x] = names :=
  genSplit_intercalate x names hne hx _ (Nat.le_refl _)

/-- The last piece of a split is not empty when the text is not empty and
does not end with the separator. -/
theorem genSplit_getLast (x : Nat) : ∀ (count : Nat) (s : GoString), s.length ≤ count →
    s ≠ [] → s.getLast? ≠ some x →
    ∃ pieces last, genSplit [x] count s = pieces ++ [last] ∧ last ≠ [] := by
  intro count
  induction count using Nat.strong_induction_on with
  | _ count ih =>
    intro s hlen hne hlast
    rcases stringsIndex_single x s with ⟨hx, _⟩ | ⟨a, b, rfl, ha, _⟩
    · exact ⟨[], s, by rw [genSplit_not_mem x s hx]; rfl, hne⟩
    · have hl : (a ++ x :: b).length = (a.length + b.length) + 1 := by simp; omega
      obtain ⟨c, rfl⟩ : ∃ c, count = c + 1 := ⟨count - 1, by omega⟩
      have hb : b ≠ [] := by
        rintro rfl
        apply hlast
        rw [List.getLast?_append_cons, List.getLast?_cons]
        simp
      have hblast : b.getLast? ≠ some x := by
        intro h
        apply hlast
        rw [List.getLast?_append_cons, List.getLast?_cons, h]
        rfl
      obtain ⟨pieces, last, hp, hlne⟩ := ih c (by omega) b (by omega) hb hblast
      exact ⟨a :: pieces, last, by rw [genSplit_step x a b ha, hp]; rfl, hlne⟩

/-- What `TrimRight` leaves: the text without all its trailing delimiters. -/
theorem stringsTrimRight_spec (x : Nat) (s : GoString) :
    ∃ k, s = stringsTrimRight s [x] ++ List.replicate k x
      ∧ (stringsTrimRight s [x]).getLast? ≠ some x := by
  unfold stringsTrimRight
  induction s using List.reverseRecOn with
  | nil => exact ⟨0, by simp [List.rdropWhile], by simp [List.rdropWhile]⟩
  | append_singleton s c ih =>
    by_cases hc : c = x
    · subst hc
      obtain ⟨k, hk, hl⟩ := ih
      rw [List.rdropWhile_concat_pos _ _ _ (by simp)]
      refine ⟨k + 1, ?_, hl⟩
      rw [List.replicate_succ', ← List.append_assoc, ← hk]
    · rw [List.rdropWhile_concat_neg _ _ _ (by simpa using hc)]
      refine ⟨0, by simp, ?_⟩
      rw [List.getLast?_concat]
      simpa using hc

theorem stringsTrimRight_of_last (x : Nat) (s : GoString) (h : s.getLast? ≠ some x) :
    stringsTrimRight s [x] = s := by
  unfold stringsTrimRight
  induction s using List.reverseRecOn with
  | nil => simp [List.rdropWhile]
  | append_singleton s c _ =>
    rw [List.getLast?_concat] at h
    rw [List.rdropWhile_concat_neg _ _ _ (by simpa using fun e => h (by rw [e]))]

theorem stringsTrimRight_concat (x : Nat) (s : GoString) :
    stringsTrimRight (s ++ [x]) [x] = stringsTrimRight s [x] := by
  unfold stringsTrimRight
  rw [List.rdropWhile_concat_pos _ _ _ (by simp)]

theorem delimDeps_eq : delimDeps = [44] := by decide

theorem noDeps_eq : noDeps = [45] := by decide

/-! ## The claims about the codec -/

/-- C1. Round trip encode-then-decode: for every bitmask `m` below `2 ^ 18`,
whatever the order in which `init`, the loop of `String` and the inner loops
of `parseTainted` visit their maps, `parseTainted (m.String())` succeeds and
returns exactly `m`; and for each of the 18 single flags of the table the
result is that flag, a value with exactly one set bit. -/
theorem parseTainted_String_roundtrip
    (order : List (GoString × modTainted)) (horder : order.Perm taintFlagMap)
    (iter : List (modTainted × GoString)) (hiter : iter.Perm (init order))
    (ord : Nat → List (GoString × modTainted)) (hord : ∀ k, (ord k).Perm taintFlagMap) :
    (∀ m : modTainted, m < 2 ^ 18 →
        parseTainted ord (modTainted.String iter m) = (m, none))
    ∧ (∀ e ∈ taintFlagMap, ∃ i < 18, e.2 = 2 ^ i
        ∧ parseTainted ord (modTainted.String iter e.2) = (2 ^ i, none)
        ∧ ∀ j, (parseTainted ord (modTainted.String iter e.2)).1.testBit j = true ↔ j = i) := by
  have hmem := mem_iter_iff order horder iter hiter
  have hround : ∀ m : modTainted, m < 2 ^ 18 →
      parseTainted ord (modTainted.String iter m) = (m, none) := by
    intro m hm
    have hletters : ∀ c ∈ setLetters iter m, c ∈ flagLetters :=
      fun c hc => ((mem_setLetters_iff iter hmem m c).1 hc).1
    rw [String_eq iter (iter_ascii iter hmem), parseTainted_wrapped,
      runes_ascii _ (fun b hb => flagLetters_ascii b (hletters b hb)),
      parseTaintedLoop_eq ord hord, (firstUnknown_eq_none_iff _).2 hletters,
      orBits_setLetters iter hmem, Nat.mod_eq_of_lt hm]
  refine ⟨hround, ?_⟩
  intro e he
  have hT := taintFlagMap_entries e he
  obtain ⟨i, hi, hpow⟩ := flagLetters_bits _ hT.2.1
  rw [← hT.2.2.1] at hpow
  have hlt : e.2 < 2 ^ 18 := by
    rw [hpow]
    exact Nat.pow_lt_pow_right (by decide) hi
  refine ⟨i, hi, hpow, by rw [hround e.2 hlt, hpow], ?_⟩
  intro j
  rw [hround e.2 hlt, hpow, Nat.testBit_two_pow]
  simp [eq_comm]

theorem parseTainted_String_roundtrip_witness :
    parseTainted (fun k => if k = 0 then taintFlagMap else taintFlagMap.reverse)
      (modTainted.String (init taintFlagMap.reverse).reverse 12288) = (12288, none) :=
  (parseTainted_String_roundtrip taintFlagMap.reverse (List.reverse_perm _)
    (init taintFlagMap.reverse).reverse (List.reverse_perm _)
    (fun k => if k = 0 then taintFlagMap else taintFlagMap.reverse)
    (fun k => by by_cases h : k = 0 <;> simp [h])).1 12288 (by decide)

/-- C2. Round trip decode-then-encode: for every text `s` that `parseTainted`
accepts, `parseTainted(s).String()` is `"("`, then letters, then `")"`, and a
letter is among them exactly when it is one of the characters between the
parentheses of `s` (duplicates collapsed, order not compared); these
characters are single bytes. -/
theorem String_parseTainted_letters
    (order : List (GoString × modTainted)) (horder : order.Perm taintFlagMap)
    (iter : List (modTainted × GoString)) (hiter : iter.Perm (init order))
    (ord : Nat → List (GoString × modTainted)) (hord : ∀ k, (ord k).Perm taintFlagMap)
    (s : GoString) (hs : (parseTainted ord s).2 = none) :
    ∃ letters : GoString,
      modTainted.String iter (parseTainted ord s).1 = 40 :: (letters ++ [41])
      ∧ letters.Nodup
      ∧ (∀ c, c ∈ letters ↔ c ∈ runes (slice s 1 (s.length - 1)))
      ∧ runes (slice s 1 (s.length - 1)) = slice s 1 (s.length - 1) := by
  have hmem := mem_iter_iff order horder iter hiter
  by_cases hw : ∃ body, s = 40 :: (body ++ [41])
  · obtain ⟨body, rfl⟩ := hw
    rw [slice_wrapped]
    rw [parseTainted_eq ord hord] at hs ⊢
    cases hfu : firstUnknown (runes body) with
    | some c => rw [hfu] at hs; simp at hs
    | none =>
      simp only
      have hall := (firstUnknown_eq_none_iff _).1 hfu
      refine ⟨setLetters iter (orBits 0 (runes body)),
        String_eq iter (iter_ascii iter hmem) _,
        setLetters_nodup order horder iter hiter _, ?_,
        runes_eq_self body (fun r hr => flagLetters_ascii r (hall r hr))⟩
      intro c
      rw [mem_setLetters_iff iter hmem]
      constructor
      · rintro ⟨hc, hne⟩
        exact (orBits_and_flagBit _ hall c hc).1 hne
      · intro hc
        exact ⟨hall c hc, (orBits_and_flagBit _ hall c (hall c hc)).2 hc⟩
  · rw [parseTainted_not_wrapped ord s hw] at hs
    simp at hs

theorem String_parseTainted_letters_witness :
    ∃ letters : GoString,
      modTainted.String (init taintFlagMap)
          (parseTainted (fun _ => taintFlagMap) (utf8 "(EOOE)")).1 = 40 :: (letters ++ [41])
      ∧ letters.Nodup
      ∧ (∀ c, c ∈ letters ↔ c ∈ runes (slice (utf8 "(EOOE)") 1 ((utf8 "(EOOE)").length - 1)))
      ∧ runes (slice (utf8 "(EOOE)") 1 ((utf8 "(EOOE)").length - 1))
          = slice (utf8 "(EOOE)") 1 ((utf8 "(EOOE)").length - 1) :=
  String_parseTainted_letters taintFlagMap (List.Perm.refl _) (init taintFlagMap)
    (List.Perm.refl _) (fun _ => taintFlagMap) (fun _ => List.Perm.refl _) (utf8 "(EOOE)")
    (by decide)

/-- C3. Encode: for every bitmask `m`, whatever the order in which the maps
are visited, `m.String()` is `"("`, then letters, then `")"`, where each of
the 18 flag letters whose bit is set in `m` occurs exactly once and nothing
else occurs; so the length is 2 plus the number of set flag bits; and
`String(0)` is exactly `"()"`. -/
theorem String_letters
    (order : List (GoString × modTainted)) (horder : order.Perm taintFlagMap)
    (iter : List (modTainted × GoString)) (hiter : iter.Perm (init order))
    (m : modTainted) :
    (∃ letters : GoString,
      modTainted.String iter m = utf8 "(" ++ letters ++ utf8 ")"
      ∧ (∀ c, letters.count c = if c ∈ flagLetters ∧ m &&& flagBit c ≠ 0 then 1 else 0))
    ∧ (modTainted.String iter m).length
        = 2 + flagLetters.countP (fun c => decide (m &&& flagBit c ≠ 0))
    ∧ modTainted.String iter 0 = utf8 "()" := by
  have hmem := mem_iter_iff order horder iter hiter
  have hnd := setLetters_nodup order horder iter hiter m
  have hcount : ∀ c, (setLetters iter m).count c
      = if c ∈ flagLetters ∧ m &&& flagBit c ≠ 0 then 1 else 0 := by
    intro c
    rw [List.count_eq_of_nodup hnd]
    simp only [mem_setLetters_iff iter hmem m c]
  have hperm : (setLetters iter m).Perm
      (flagLetters.filter fun c => decide (m &&& flagBit c ≠ 0)) := by
    apply (List.perm_ext_iff_of_nodup hnd (List.Nodup.filter _ flagLetters_nodup)).2
    intro c
    rw [mem_setLetters_iff iter hmem m c]
    simp
  refine ⟨⟨setLetters iter m, ?_, hcount⟩, ?_, ?_⟩
  · rw [String_eq iter (iter_ascii iter hmem)]
    rfl
  · rw [String_eq iter (iter_ascii iter hmem), List.countP_eq_length_filter, ← hperm.length_eq]
    simp
    omega
  · rw [String_eq iter (iter_ascii iter hmem)]
    simp [setLetters]
    decide

theorem String_letters_witness :
    (modTainted.String (init taintFlagMap.reverse) 12289).length
      = 2 + flagLetters.countP (fun c => decide (12289 &&& flagBit c ≠ 0)) :=
  (String_letters taintFlagMap.reverse (List.reverse_perm _) (init taintFlagMap.reverse)
    (List.Perm.refl _) 12289).2.1

/-- C4. Decode value: for every text `"(" + body + ")"` in which every
character of `body` is one of the 18 flag letters, `parseTainted` succeeds
and returns the bitwise OR of the bit values of the characters of `body`;
the result is the same for two bodies with the same characters, whatever
their order and however often they are repeated; the bit value of a letter
is the value the table `taintFlagMap` gives it; `parseTainted("()")` is 0
and `parseTainted("(OE)")` is `4096 | 8192`. -/
theorem parseTainted_value
    (ord : Nat → List (GoString × modTainted)) (hord : ∀ k, (ord k).Perm taintFlagMap) :
    (∀ body : GoString, (∀ c ∈ body, c ∈ flagLetters) →
        parseTainted ord (utf8 "(" ++ body ++ utf8 ")")
          = (body.foldl (fun a c => a ||| flagBit c) 0, none))
    ∧ (∀ body body2 : GoString, (∀ c ∈ body, c ∈ flagLetters) → (∀ c, c ∈ body ↔ c ∈ body2) →
        parseTainted ord (utf8 "(" ++ body2 ++ utf8 ")")
          = parseTainted ord (utf8 "(" ++ body ++ utf8 ")"))
    ∧ (∀ e ∈ taintFlagMap, ∃ c ∈ flagLetters,
        e.1 = utf8 "(" ++ [c] ++ utf8 ")" ∧ e.2 = flagBit c)
    ∧ parseTainted ord (utf8 "()") = (0, none)
    ∧ parseTainted ord (utf8 "(OE)") = (4096 ||| 8192, none) := by
  have hval : ∀ body : GoString, (∀ c ∈ body, c ∈ flagLetters) →
      parseTainted ord (utf8 "(" ++ body ++ utf8 ")") = (orBits 0 body, none) := by
    intro body hbody
    have h1 : utf8 "(" ++ body ++ utf8 ")" = 40 :: (body ++ [41]) := by
      have h1 : utf8 "(" = [40] := by decide
      have h2 : utf8 ")" = [41] := by decide
      rw [h1, h2]
      rfl
    rw [h1, parseTainted_eq ord hord,
      runes_ascii body (fun b hb => flagLetters_ascii b (hbody b hb)),
      (firstUnknown_eq_none_iff _).2 hbody]
  refine ⟨hval, ?_, by decide, ?_, ?_⟩
  · intro body body2 hbody hsame
    rw [hval body hbody, hval body2 (fun c hc => hbody c ((hsame c).2 hc)),
      orBits_congr body body2 hsame]
  · exact hval [] (by simp)
  · exact hval [79, 69] (by decide)

theorem parseTainted_value_witness :
    parseTainted (fun _ => taintFlagMap.reverse) (utf8 "(" ++ utf8 "EOPE" ++ utf8 ")")
      = parseTainted (fun _ => taintFlagMap.reverse) (utf8 "(" ++ utf8 "PEO" ++ utf8 ")") :=
  (parseTainted_value (fun _ => taintFlagMap.reverse) (fun _ => List.reverse_perm _)).2.1
    (utf8 "PEO") (utf8 "EOPE") (by decide)
    (fun c => by
      rw [show utf8 "PEO" = [80, 69, 79] from by decide,
        show utf8 "EOPE" = [69, 79, 80, 69] from by decide]
      simp only [List.mem_cons, List.mem_singleton, List.not_mem_nil, or_false]
      tauto)

/-- C5. Unknown flag: for every text that starts with `(`, ends with `)` and
has at least two bytes, `parseTainted` fails if and only if some character
between the parentheses is not one of the 18 flag letters; when it fails,
the value is 0 and the error is the unknown-flag error of the leftmost such
character, `Z` for `"(Z)"`. -/
theorem parseTainted_unknown_flag
    (ord : Nat → List (GoString × modTainted)) (hord : ∀ k, (ord k).Perm taintFlagMap)
    (s : GoString) (hlen : 2 ≤ s.length) (hhead : s.head? = some '('.toNat)
    (hlast : s.getLast? = some ')'.toNat) :
    ((parseTainted ord s).2 ≠ none
        ↔ ∃ c ∈ runes (slice s 1 (s.length - 1)), c ∉ flagLetters)
    ∧ ((parseTainted ord s).2 ≠ none →
        ∃ pre c post, runes (slice s 1 (s.length - 1)) = pre ++ c :: post
          ∧ (∀ x ∈ pre, x ∈ flagLetters) ∧ c ∉ flagLetters
          ∧ parseTainted ord s = (0, some (.errorf "unknown tainted flag (%c)" [.rune c])))
    ∧ parseTainted ord (utf8 "(Z)")
        = (0, some (.errorf "unknown tainted flag (%c)" [.rune 'Z'.toNat])) := by
  obtain ⟨body, rfl⟩ := (wrapped_iff s).1 ⟨hlen, hhead, hlast⟩
  rw [slice_wrapped, parseTainted_eq ord hord]
  refine ⟨?_, ?_, ?_⟩
  · cases hfu : firstUnknown (runes body) with
    | some c =>
      have := List.find?_some hfu
      have hmem := List.mem_of_find?_eq_some hfu
      simp only [ne_eq, reduceCtorEq, not_false_eq_true, true_iff]
      exact ⟨c, hmem, by simpa using this⟩
    | none =>
      have hall := (firstUnknown_eq_none_iff _).1 hfu
      simp only [ne_eq, not_true_eq_false, false_iff, not_exists, not_and, not_not]
      exact hall
  · cases hfu : firstUnknown (runes body) with
    | some c =>
      intro _
      obtain ⟨hp, pre, post, hsplit, hpre⟩ := List.find?_eq_some.1 hfu
      refine ⟨pre, c, post, hsplit, ?_, by simpa using hp, rfl⟩
      intro x hx
      simpa using hpre x hx
    | none => intro h; simp at h
  · have h1 : utf8 "(Z)" = 40 :: ([90] ++ [41]) := by decide
    rw [h1, parseTainted_eq ord hord]
    rfl

theorem parseTainted_unknown_flag_witness :
    ∃ pre c post,
      runes (slice (utf8 "(OZEq)") 1 ((utf8 "(OZEq)").length - 1)) = pre ++ c :: post
        ∧ (∀ x ∈ pre, x ∈ flagLetters) ∧ c ∉ flagLetters
        ∧ parseTainted (fun _ => taintFlagMap) (utf8 "(OZEq)")
            = (0, some (.errorf "unknown tainted flag (%c)" [.rune c])) :=
  (parseTainted_unknown_flag (fun _ => taintFlagMap) (fun _ => List.Perm.refl _) (utf8 "(OZEq)")
    (by decide) (by decide) (by decide)).2.1 (by decide)

/-- C6. Invalid format: for every text `s`, `parseTainted` fails with an
invalid-format error if and only if `s` has fewer than two bytes, or does not
start with `(`, or does not end with `)`; the error then carries `s` for the
verb `%q`, the value is 0, and the error differs from every unknown-flag
error.  The same holds with the length counted in characters. -/
theorem parseTainted_invalid_format (ord : Nat → List (GoString × modTainted)) (s : GoString) :
    ((∃ args, (parseTainted ord s).2 = some (.errorf "invalid format: %q" args))
        ↔ (s.length < 2 ∨ s.head? ≠ some '('.toNat ∨ s.getLast? ≠ some ')'.toNat))
    ∧ ((∃ args, (parseTainted ord s).2 = some (.errorf "invalid format: %q" args))
        ↔ ((runes s).length < 2 ∨ s.head? ≠ some '('.toNat ∨ s.getLast? ≠ some ')'.toNat))
    ∧ ((∃ args, (parseTainted ord s).2 = some (.errorf "invalid format: %q" args)) →
        parseTainted ord s = (0, some (.errorf "invalid format: %q" [.str s])))
    ∧ (∀ c, GoError.errorf "invalid format: %q" [.str s]
        ≠ GoError.errorf "unknown tainted flag (%c)" [.rune c])
    ∧ (parseTainted ord (utf8 "(")).2 = some (.errorf "invalid format: %q" [.str (utf8 "(")])
    ∧ (parseTainted ord (utf8 ")")).2 = some (.errorf "invalid format: %q" [.str (utf8 ")")])
    := by
  have hw : (s.length < 2 ∨ s.head? ≠ some '('.toNat ∨ s.getLast? ≠ some ')'.toNat)
      ↔ ¬ ∃ body, s = 40 :: (body ++ [41]) := by
    rw [← wrapped_iff]
    have h40 : '('.toNat = 40 := by decide
    have h41 : ')'.toNat = 41 := by decide
    rw [h40, h41]
    constructor
    · rintro h ⟨h1, h2, h3⟩
      rcases h with h | h | h
      · omega
      · exact h h2
      · exact h h3
    · intro h
      by_contra hn
      simp only [not_or, not_lt, ne_eq, not_not] at hn
      exact h hn
  have hiff : (∃ args, (parseTainted ord s).2 = some (.errorf "invalid format: %q" args))
      ↔ ¬ ∃ body, s = 40 :: (body ++ [41]) := by
    constructor
    · rintro ⟨args, hargs⟩ ⟨body, rfl⟩
      rw [parseTainted_wrapped] at hargs
      rcases parseTaintedLoop_error ord (runes body) 0 0 with h | ⟨c, h⟩
      · rw [h] at hargs
        simp at hargs
      · rw [h] at hargs
        simp at hargs
    · intro h
      exact ⟨_, by rw [parseTainted_not_wrapped ord s h]⟩
  refine ⟨hiff.trans hw.symm, ?_, ?_, ?_, ?_, ?_⟩
  · rw [hiff, ← hw]
    constructor
    · rintro (h | h | h)
      · exact Or.inl (Nat.lt_of_le_of_lt (runes_length_le s) h)
      · exact Or.inr (Or.inl h)
      · exact Or.inr (Or.inr h)
    · rintro (h | h | h)
      · by_contra hn
        obtain ⟨body, rfl⟩ := not_not.1 (fun hnw => hn (hw.2 hnw))
        have := runes_wrapped_length body
        omega
      · exact Or.inr (Or.inl h)
      · exact Or.inr (Or.inr h)
  · intro h
    exact parseTainted_not_wrapped ord s (hiff.1 h)
  · intro c
    simp
  · unfold parseTainted
    rw [if_pos (by decide)]
  · unfold parseTainted
    rw [if_pos (by decide)]

theorem parseTainted_invalid_format_witness :
    parseTainted (fun _ => taintFlagMap) (utf8 "OE)")
      = (0, some (.errorf "invalid format: %q" [.str (utf8 "OE)")])) :=
  (parseTainted_invalid_format (fun _ => taintFlagMap) (utf8 "OE)")).2.2.1
    ⟨[.str (utf8 "OE)")], by decide⟩

/-! ## The claims about the field decoders -/

/-- C7. Numeric decoding, accepted inputs: for every `n` below `2 ^ 64`,
`parseUint` of the decimal numeral of `n` returns `n`, and `parseUint` of
`"0x"` followed by any hexadecimal numeral of `n` (digits in either case,
leading zeros allowed) returns `n`; a text beginning with `"0x"` is read in
base 16 only and any other text in base 10 only; `"0x1a"` gives 26, `"26"`
gives 26 and `"0x0000000000000000"` gives 0. -/
theorem parseUint_accepts :
    (∀ n, n < 2 ^ 64 → parseUint ((Nat.toDigits 10 n).map Char.toNat) = (n, none))
    ∧ (∀ n, n < 2 ^ 64 → ∀ cs, isNumeral 10 cs → numeralValue 10 cs = n →
        parseUint cs = (n, none))
    ∧ (∀ n, n < 2 ^ 64 → ∀ cs, isNumeral 16 cs → numeralValue 16 cs = n →
        parseUint (utf8 "0x" ++ cs) = (n, none))
    ∧ (∀ n, n < 2 ^ 64 → ∀ k,
        parseUint (utf8 "0x" ++ (List.replicate k '0'.toNat ++ (Nat.toDigits 16 n).map Char.toNat))
          = (n, none))
    ∧ (∀ rest, parseUint (utf8 "0x" ++ rest) = ParseUint rest 16 64)
    ∧ (∀ s, (¬ ∃ rest, s = utf8 "0x" ++ rest) → parseUint s = ParseUint s 10 64)
    ∧ parseUint (utf8 "0x1a") = (26, none)
    ∧ parseUint (utf8 "0x1A") = (26, none)
    ∧ parseUint (utf8 "26") = (26, none)
    ∧ parseUint (utf8 "0x0000000000000000") = (0, none) := by
  have hdec : ∀ n, n < 2 ^ 64 → ∀ cs, isNumeral 10 cs → numeralValue 10 cs = n →
      parseUint cs = (n, none) := by
    intro n hn cs hnum hval
    have hspec := ParseUint_spec 10 (by decide) (by decide) cs
    have hok : (ParseUint cs 10 64).2 = none := hspec.1.2 ⟨hnum, by rw [hval]; exact hn⟩
    rw [parseUint_dec cs (isNumeral_10_not_0x cs hnum)]
    exact Prod.ext (by rw [hspec.2 hok, hval]) hok
  have hhex : ∀ n, n < 2 ^ 64 → ∀ cs, isNumeral 16 cs → numeralValue 16 cs = n →
      parseUint (utf8 "0x" ++ cs) = (n, none) := by
    intro n hn cs hnum hval
    have hspec := ParseUint_spec 16 (by decide) (by decide) cs
    have hok : (ParseUint cs 16 64).2 = none := hspec.1.2 ⟨hnum, by rw [hval]; exact hn⟩
    rw [parseUint_hex]
    exact Prod.ext (by rw [hspec.2 hok, hval]) hok
  refine ⟨?_, hdec, hhex, ?_, parseUint_hex, parseUint_dec, by decide, by decide, by decide,
    by decide⟩
  · intro n hn
    obtain ⟨h1, h2⟩ := toDigits_numeral 10 (by decide) (by decide) n
    exact hdec n hn _ h1 h2
  · intro n hn k
    obtain ⟨h1, h2⟩ := toDigits_numeral 16 (by decide) (by decide) n
    obtain ⟨h3, h4⟩ := leading_zeros 16 (by decide) k _ h1
    exact hhex n hn _ h3 (by rw [h4, h2])

theorem parseUint_accepts_witness :
    parseUint ((Nat.toDigits 10 18446744073709551615).map Char.toNat)
        = (18446744073709551615, none)
    ∧ parseUint (utf8 "0x" ++ utf8 "00fFfFfFfFfFfFfFfF") = (18446744073709551615, none) :=
  ⟨parseUint_accepts.1 18446744073709551615 (by decide),
    parseUint_accepts.2.2.1 18446744073709551615 (by decide) (utf8 "00fFfFfFfFfFfFfFfF")
      (by decide) (by decide)⟩

/-- C8. Numeric decoding, rejected inputs: `parseUint` succeeds exactly on
`"0x"` followed by a hexadecimal numeral below `2 ^ 64` and on a decimal
numeral below `2 ^ 64`; it fails on every other text: the empty text, `"0x"`
alone, a text with a sign or with a character that is no digit of the
selected base (`"xyz"`, `"-1"`, `"1a"`), and every numeral whose value is
`2 ^ 64` or more.  Every value decoded with success is below `2 ^ 64`. -/
theorem parseUint_rejects (s : GoString) :
    ((parseUint s).2 = none ↔
        (∃ rest, s = utf8 "0x" ++ rest ∧ isNumeral 16 rest ∧ numeralValue 16 rest < 2 ^ 64)
        ∨ (isNumeral 10 s ∧ numeralValue 10 s < 2 ^ 64))
    ∧ ((parseUint s).2 = none → (parseUint s).1 < 2 ^ 64)
    ∧ (parseUint (utf8 "")).2 ≠ none
    ∧ (parseUint (utf8 "0x")).2 ≠ none
    ∧ (parseUint (utf8 "xyz")).2 ≠ none
    ∧ (parseUint (utf8 "-1")).2 ≠ none
    ∧ (parseUint (utf8 "+1")).2 ≠ none
    ∧ (parseUint (utf8 "1a")).2 ≠ none
    ∧ (parseUint (utf8 "0x1g")).2 ≠ none
    ∧ (parseUint (utf8 "18446744073709551616")).2 ≠ none
    ∧ (parseUint (utf8 "0x10000000000000000")).2 ≠ none := by
  refine ⟨?_, ?_, by decide, by decide, by decide, by decide, by decide, by decide, by decide,
    by decide, by decide⟩
  · by_cases hp : ∃ rest, s = utf8 "0x" ++ rest
    · obtain ⟨rest, rfl⟩ := hp
      rw [parseUint_hex, (ParseUint_spec 16 (by decide) (by decide) rest).1]
      constructor
      · intro h
        exact Or.inl ⟨rest, rfl, h⟩
      · rintro (⟨rest2, heq, h⟩ | ⟨h, _⟩)
        · rw [List.append_cancel_left heq]
          exact h
        · exact absurd ⟨rest, rfl⟩ (isNumeral_10_not_0x _ h)
    · rw [parseUint_dec s hp, (ParseUint_spec 10 (by decide) (by decide) s).1]
      constructor
      · intro h
        exact Or.inr h
      · rintro (⟨rest, heq, _⟩ | h)
        · exact absurd ⟨rest, heq⟩ hp
        · exact h
  · intro hok
    by_cases hp : ∃ rest, s = utf8 "0x" ++ rest
    · obtain ⟨rest, rfl⟩ := hp
      rw [parseUint_hex] at hok ⊢
      have hspec := ParseUint_spec 16 (by decide) (by decide) rest
      rw [hspec.2 hok]
      exact (hspec.1.1 hok).2
    · rw [parseUint_dec s hp] at hok ⊢
      have hspec := ParseUint_spec 10 (by decide) (by decide) s
      rw [hspec.2 hok]
      exact (hspec.1.1 hok).2

theorem parseUint_rejects_witness :
    (parseUint (utf8 "0xdeadBEEF")).2 = none ∧ (parseUint (utf8 "0xdeadBEEF")).1 < 2 ^ 64 :=
  ⟨by decide, (parseUint_rejects (utf8 "0xdeadBEEF")).2.1 (by decide)⟩

theorem intercalate_cons_cons (x : Nat) (n m : GoString) (rest : List GoString) :
    [x].intercalate (n :: m :: rest) = n ++ x :: [x].intercalate (m :: rest) := by
  simp [List.intercalate]

/-- Names that are not empty and hold no separator, joined: the text is not
empty and does not end with the separator. -/
theorem intercalate_last (x : Nat) (names : List GoString) (hne : names ≠ [])
    (hx : ∀ n ∈ names, n ≠ [] ∧ x ∉ n) :
    [x].intercalate names ≠ [] ∧ ([x].intercalate names).getLast? ≠ some x := by
  induction names with
  | nil => exact absurd rfl hne
  | cons n rest ih =>
    cases rest with
    | nil =>
      have hj : [x].intercalate [n] = n := by simp [List.intercalate]
      rw [hj]
      obtain ⟨hn, hxn⟩ := hx n (List.mem_cons_self _ _)
      refine ⟨hn, ?_⟩
      intro h
      exact hxn (List.mem_of_getLast?_eq_some h)
    | cons m rest =>
      rw [intercalate_cons_cons]
      obtain ⟨h1, h2⟩ := ih (by simp) (fun k hk => hx k (List.mem_cons_of_mem _ hk))
      refine ⟨by simp, ?_⟩
      rw [List.getLast?_append_cons, List.getLast?_cons]
      cases hl : ([x].intercalate (m :: rest)).getLast? with
      | none => exact absurd (List.getLast?_eq_none_iff.1 hl) h1
      | some y =>
        rw [hl] at h2
        simpa using h2

/-- C9. Dependency list decoding: `splitDeps("-")` is the empty sequence; for
every non-empty list of non-empty names without a comma, `splitDeps` of the
names joined by `","` followed by one trailing `","` returns exactly that
list, and so does `splitDeps` of the joined names without the trailing
`","`, unless the list is just `["-"]`; `"a,b,"` and `"a,b"` both give
`["a", "b"]`. -/
theorem splitDeps_names :
    splitDeps (utf8 "-") = []
    ∧ (∀ names : List GoString, names ≠ [] → (∀ n ∈ names, n ≠ [] ∧ ','.toNat ∉ n) →
        (names ≠ [utf8 "-"] → splitDeps ((utf8 ",").intercalate names) = names)
        ∧ splitDeps ((utf8 ",").intercalate names ++ utf8 ",") = names)
    ∧ splitDeps (utf8 "a,b,") = [utf8 "a", utf8 "b"]
    ∧ splitDeps (utf8 "a,b") = [utf8 "a", utf8 "b"] := by
  refine ⟨by decide, ?_, by decide, by decide⟩
  intro names hne hnames
  have hcomma : utf8 "," = [44] := by decide
  have hdash : utf8 "-" = [45] := by decide
  have h44 : ','.toNat = 44 := by decide
  rw [hcomma, hdash]
  rw [h44] at hnames
  obtain ⟨hj, hlast⟩ := intercalate_last 44 names hne hnames
  have hsplit := stringsSplit_intercalate 44 names hne (fun n hn => (hnames n hn).2)
  constructor
  · intro hnot
    unfold splitDeps
    rw [noDeps_eq, delimDeps_eq, stringsTrimRight_of_last 44 _ hlast, hsplit, if_neg]
    intro heq
    apply hnot
    rw [← hsplit, heq]
    decide
  · unfold splitDeps
    rw [noDeps_eq, delimDeps_eq, stringsTrimRight_concat, stringsTrimRight_of_last 44 _ hlast,
      hsplit, if_neg]
    intro heq
    have hlen := congrArg List.length heq
    have : 0 < ([44].intercalate names).length := List.length_pos.2 hj
    rw [List.length_append] at hlen
    simp only [List.length_cons, List.length_nil] at hlen
    omega

theorem splitDeps_names_witness :
    splitDeps ((utf8 ",").intercalate [utf8 "usbcore", utf8 "ehci_hcd"] ++ utf8 ",")
      = [utf8 "usbcore", utf8 "ehci_hcd"] :=
  (splitDeps_names.2.1 [utf8 "usbcore", utf8 "ehci_hcd"] (by decide) (by decide)).2

/-- C10 as it is worded fails: on `"a,,"` the code drops both commas and
returns `["a"]`, where removing a single trailing `","` and splitting gives
`["a", ""]`; and on `","` the result is `[""]`, whose last element is the
empty string. -/
theorem splitDeps_single_delim_counterexample :
    splitDeps (utf8 "a,,") = [utf8 "a"]
    ∧ splitDepsSpec (utf8 "a,,") = [utf8 "a", utf8 ""]
    ∧ splitDeps (utf8 "a,,") ≠ splitDepsSpec (utf8 "a,,")
    ∧ utf8 "," ≠ noDeps
    ∧ (splitDeps (utf8 ",")).getLast? = some (utf8 "") := by
  decide

/-- C10, amended. For every dependency field `s` other than `"-"`,
`splitDeps(s)` is the result of removing all trailing `","` from `s` and
splitting the remainder on `","`; when `s` does not end in `",,"` this is
the result of removing a single trailing `","` (if there is one) and
splitting; and when `s` holds a character other than `","`, the result has a
last element and it is not the empty string. -/
theorem splitDeps_trailing_delims (s : GoString) (hs : s ≠ utf8 "-") :
    (∃ core k, s = core ++ List.replicate k ','.toNat ∧ core.getLast? ≠ some ','.toNat
        ∧ splitDeps s = stringsSplit core (utf8 ","))
    ∧ ((¬ ∃ t, s = t ++ utf8 ",,") → splitDeps s = splitDepsSpec s)
    ∧ ((∃ c ∈ s, c ≠ ','.toNat) →
        ∃ pieces last, splitDeps s = pieces ++ [last] ∧ last ≠ utf8 "") := by
  have hcomma : utf8 "," = [44] := by decide
  have hcc : utf8 ",," = [44, 44] := by decide
  have hdash : utf8 "-" = [45] := by decide
  have hemp : utf8 "" = [] := by decide
  have h44 : ','.toNat = 44 := by decide
  rw [hcomma, hcc, hemp, h44]
  rw [hdash] at hs
  have hdef : splitDeps s = stringsSplit (stringsTrimRight s [44]) [44] := by
    unfold splitDeps
    rw [noDeps_eq, delimDeps_eq, if_neg hs]
  obtain ⟨k, hk, hlast⟩ := stringsTrimRight_spec 44 s
  refine ⟨⟨stringsTrimRight s [44], k, hk, hlast, hdef⟩, ?_, ?_⟩
  · intro hno
    unfold splitDepsSpec stripOneDelim
    rw [noDeps_eq, delimDeps_eq, if_neg hs, hdef]
    by_cases hl : s.getLast? = some ','.toNat
    · rw [if_pos hl]
      rw [h44] at hl
      obtain ⟨t, ht⟩ := List.getLast?_eq_some_iff.1 hl
      subst ht
      rw [stringsTrimRight_concat, List.dropLast_concat]
      have htl : t.getLast? ≠ some 44 := by
        intro h
        obtain ⟨u, hu⟩ := List.getLast?_eq_some_iff.1 h
        exact hno ⟨u, by rw [hu]; simp⟩
      rw [stringsTrimRight_of_last 44 t htl]
    · rw [if_neg hl]
      rw [h44] at hl
      rw [stringsTrimRight_of_last 44 s hl]
  · rintro ⟨c, hc, hne⟩
    rw [hdef]
    have hcore : stringsTrimRight s [44] ≠ [] := by
      intro h0
      rw [h0, List.nil_append] at hk
      rw [hk] at hc
      exact hne (List.eq_of_mem_replicate hc)
    exact genSplit_getLast 44 _ _ (Nat.le_refl _) hcore hlast

theorem splitDeps_trailing_delims_witness :
    ∃ pieces last, splitDeps (utf8 "usbcore,ehci_hcd,,") = pieces ++ [last] ∧ last ≠ utf8 "" :=
  (splitDeps_trailing_delims (utf8 "usbcore,ehci_hcd,,") (by decide)).2.2 ⟨117, by decide, by decide⟩


/-! ## The claims about the table and about dropped bits -/

/-- C18. Flag table: the letter table has exactly 18 entries; its keys are
`"(P)"`, `"(F)"`, `"(S)"`, `"(R)"`, `"(M)"`, `"(B)"`, `"(U)"`, `"(D)"`,
`"(A)"`, `"(W)"`, `"(C)"`, `"(I)"`, `"(O)"`, `"(E)"`, `"(L)"`, `"(K)"`,
`"(X)"`, `"(T)"` and in that order they map to `2 ^ 0`, ..., `2 ^ 17`; keys,
letters and bit values are pairwise distinct; and the reverse table built by
`init`, in whatever order it visits the forward table, has 18 entries with
distinct keys and holds `val ↦ str` exactly when the forward table holds
`str ↦ val`. -/
theorem taintFlagMap_table :
    taintFlagMap.length = 18
    ∧ taintFlagMap.map (fun e => e.1)
        = [utf8 "(P)", utf8 "(F)", utf8 "(S)", utf8 "(R)", utf8 "(M)", utf8 "(B)", utf8 "(U)",
            utf8 "(D)", utf8 "(A)", utf8 "(W)", utf8 "(C)", utf8 "(I)", utf8 "(O)", utf8 "(E)",
            utf8 "(L)", utf8 "(K)", utf8 "(X)", utf8 "(T)"]
    ∧ taintFlagMap.map (fun e => e.2) = (List.range 18).map (fun i => 2 ^ i)
    ∧ (taintFlagMap.map fun e => e.1).Nodup
    ∧ (taintFlagMap.map fun e => e.1.getD 1 0).Nodup
    ∧ (taintFlagMap.map fun e => e.2).Nodup
    ∧ (∀ order : List (GoString × modTainted), order.Perm taintFlagMap →
        (init order).length = 18
        ∧ ((init order).map fun e => e.1).Nodup
        ∧ ((init order).map fun e => e.2).Nodup
        ∧ ∀ str val, (val, str) ∈ init order ↔ (str, val) ∈ taintFlagMap) := by
  refine ⟨by decide, by decide, by decide, by decide, by decide, by decide, ?_⟩
  intro order horder
  have hkeys : (taintFlagMap.map fun e => e.1).Nodup := by decide
  rw [init_eq_map order horder]
  refine ⟨?_, ?_, ?_, ?_⟩
  · rw [List.length_map, horder.length_eq]
    decide
  · rw [List.map_map]
    exact (List.Perm.nodup_iff (horder.map _)).2 taintFlagMap_vals_nodup
  · rw [List.map_map]
    exact (List.Perm.nodup_iff (horder.map _)).2 hkeys
  · intro str val
    rw [List.mem_map]
    constructor
    · rintro ⟨e, he, heq⟩
      have h1 : e.2 = val := congrArg Prod.fst heq
      have h2 : e.1 = str := congrArg Prod.snd heq
      rw [← h1, ← h2]
      exact horder.mem_iff.1 he
    · intro h
      exact ⟨(str, val), horder.mem_iff.2 h, rfl⟩

theorem taintFlagMap_table_witness :
    (init taintFlagMap.reverse).length = 18
    ∧ ((init taintFlagMap.reverse).map fun e => e.1).Nodup
    ∧ ((init taintFlagMap.reverse).map fun e => e.2).Nodup
    ∧ ∀ str val, (val, str) ∈ init taintFlagMap.reverse ↔ (str, val) ∈ taintFlagMap :=
  taintFlagMap_table.2.2.2.2.2.2 taintFlagMap.reverse (List.reverse_perm _)

theorem flagBit_lt (c : Rune) : flagBit c < 2 ^ 18 := by
  by_cases hc : c ∈ flagLetters
  · obtain ⟨i, hi, hpow⟩ := flagLetters_bits c hc
    rw [hpow]
    exact Nat.pow_lt_pow_right (by decide) hi
  · unfold flagBit
    rw [if_neg hc]
    decide

theorem orBits_lt (cs : List Rune) : ∀ combined : modTainted, combined < 2 ^ 18 →
    orBits combined cs < 2 ^ 18 := by
  induction cs with
  | nil => intro combined h; exact h
  | cons c cs ih =>
    intro combined h
    unfold orBits
    rw [List.foldl_cons]
    exact ih _ (Nat.or_lt_two_pow h (flagBit_lt c))

/-- C20. Bits outside the table are dropped by the codec: for every value `m`
of `modTainted`, `parseTainted (m.String())` succeeds and returns
`m AND (2 ^ 18 - 1)`; every non-zero `m` with no bit below `2 ^ 18` encodes
to `"()"`, the text of the zero bitmask; and every value `parseTainted`
returns is below `2 ^ 18`. -/
theorem parseTainted_String_mask
    (order : List (GoString × modTainted)) (horder : order.Perm taintFlagMap)
    (iter : List (modTainted × GoString)) (hiter : iter.Perm (init order))
    (ord : Nat → List (GoString × modTainted)) (hord : ∀ k, (ord k).Perm taintFlagMap) :
    (∀ m : modTainted, parseTainted ord (modTainted.String iter m) = (m &&& (2 ^ 18 - 1), none))
    ∧ (∀ m : modTainted, m ≠ 0 → m &&& (2 ^ 18 - 1) = 0 →
        modTainted.String iter m = utf8 "()" ∧ modTainted.String iter 0 = utf8 "()")
    ∧ (∀ s : GoString, (parseTainted ord s).1 < 2 ^ 18) := by
  have hmem := mem_iter_iff order horder iter hiter
  have hempty : utf8 "()" = [40, 41] := by decide
  refine ⟨?_, ?_, ?_⟩
  · intro m
    have hletters : ∀ c ∈ setLetters iter m, c ∈ flagLetters :=
      fun c hc => ((mem_setLetters_iff iter hmem m c).1 hc).1
    rw [String_eq iter (iter_ascii iter hmem), parseTainted_wrapped,
      runes_ascii _ (fun b hb => flagLetters_ascii b (hletters b hb)),
      parseTaintedLoop_eq ord hord, (firstUnknown_eq_none_iff _).2 hletters,
      orBits_setLetters iter hmem, Nat.and_pow_two_sub_one_eq_mod]
  · intro m _ hlow
    rw [Nat.and_pow_two_sub_one_eq_mod] at hlow
    have hnil : ∀ t : modTainted, t % 2 ^ 18 = 0 → setLetters iter t = [] := by
      intro t ht
      apply List.eq_nil_iff_forall_not_mem.2
      intro c hc
      obtain ⟨hfl, hne⟩ := (mem_setLetters_iff iter hmem t c).1 hc
      obtain ⟨i, hi, hpow⟩ := flagLetters_bits c hfl
      rw [hpow, and_two_pow_ne_zero] at hne
      have hb := Nat.testBit_mod_two_pow t 18 i
      rw [ht, Nat.zero_testBit, hne] at hb
      simp [hi] at hb
    rw [String_eq iter (iter_ascii iter hmem), String_eq iter (iter_ascii iter hmem),
      hnil m hlow, hnil 0 (by decide), hempty]
    exact ⟨rfl, rfl⟩
  · intro s
    by_cases hw : ∃ body, s = 40 :: (body ++ [41])
    · obtain ⟨body, rfl⟩ := hw
      rw [parseTainted_eq ord hord]
      cases firstUnknown (runes body) with
      | some c => simp
      | none => exact orBits_lt _ 0 (by decide)
    · rw [parseTainted_not_wrapped ord s hw]
      simp

theorem parseTainted_String_mask_witness :
    parseTainted (fun _ => taintFlagMap) (modTainted.String (init taintFlagMap) 4294967295)
        = (4294967295 &&& (2 ^ 18 - 1), none)
    ∧ modTainted.String (init taintFlagMap) 262144 = utf8 "()" :=
  ⟨(parseTainted_String_mask taintFlagMap (List.Perm.refl _) (init taintFlagMap)
      (List.Perm.refl _) (fun _ => taintFlagMap) (fun _ => List.Perm.refl _)).1 4294967295,
    ((parseTainted_String_mask taintFlagMap (List.Perm.refl _) (init taintFlagMap)
      (List.Perm.refl _) (fun _ => taintFlagMap) (fun _ => List.Perm.refl _)).2.1 262144
        (by decide) (by decide)).1⟩

/-! ## Lemmas: the items of a dependency field -/

theorem isItem_iff (x s : GoString) :
    isItem x s ↔ 44 ∉ x ∧ ∃ pre post, s = pre ++ x ++ post
      ∧ (pre = [] ∨ pre.getLast? = some 44) ∧ (post = [] ∨ post.head? = some 44) := by
  have h44 : ','.toNat = 44 := by decide
  unfold isItem
  rw [h44]

theorem isItem_of_not_mem (x s : GoString) (hs : 44 ∉ s) : isItem x s ↔ x = s := by
  rw [isItem_iff]
  constructor
  · rintro ⟨_, pre, post, rfl, hpre, hpost⟩
    have h1 : pre = [] := by
      rcases hpre with h | h
      · exact h
      · exact absurd (List.mem_append_left _ (List.mem_append_left _
          (List.mem_of_getLast?_eq_some h))) hs
    have h2 : post = [] := by
      rcases hpost with h | h
      · exact h
      · obtain ⟨t, rfl⟩ := List.head?_eq_some_iff.1 h
        exact absurd (List.mem_append_right _ (List.mem_cons_self _ _)) hs
    subst h1 h2
    simp
  · rintro rfl
    exact ⟨hs, [], [], by simp, Or.inl rfl, Or.inl rfl⟩

theorem isItem_append_cons (x a b : GoString) (ha : 44 ∉ a) :
    isItem x (a ++ 44 :: b) ↔ x = a ∨ isItem x b := by
  rw [isItem_iff, isItem_iff]
  constructor
  · rintro ⟨hx, pre, post, heq, hpre, hpost⟩
    rw [List.append_assoc] at heq
    rcases List.append_eq_append_iff.1 heq with ⟨a1, hp, hb⟩ | ⟨c1, hacc, hxp⟩
    · -- pre = a ++ a1, 44 :: b = a1 ++ (x ++ post)
      cases a1 with
      | nil =>
        rw [List.append_nil] at hp
        subst hp
        have hpre0 : pre = [] := by
          rcases hpre with h | h
          · exact h
          · exact absurd (List.mem_of_getLast?_eq_some h) ha
        subst hpre0
        rw [List.nil_append] at hb
        cases x with
        | nil => exact Or.inl rfl
        | cons y ys =>
          rw [List.cons_append] at hb
          have : y = 44 := (List.cons.inj hb).1.symm
          exact absurd (this ▸ List.mem_cons_self _ _) hx
      | cons y a2 =>
        rw [List.cons_append] at hb
        obtain ⟨hy, hb2⟩ := List.cons.inj hb
        subst hy
        right
        refine ⟨hx, a2, post, by rw [hb2, List.append_assoc], ?_, hpost⟩
        subst hp
        rcases hpre with h | h
        · simp at h
        · by_cases ha2 : a2 = []
          · exact Or.inl ha2
          · right
            rw [List.getLast?_append_cons, List.getLast?_cons] at h
            cases hl : a2.getLast? with
            | none => exact absurd (List.getLast?_eq_none_iff.1 hl) ha2
            | some z =>
              rw [hl] at h
              simpa using h
    · -- a = pre ++ c1, x ++ post = c1 ++ 44 :: b
      have hpre0 : pre = [] := by
        rcases hpre with h | h
        · exact h
        · exact absurd (hacc ▸ List.mem_append_left _ (List.mem_of_getLast?_eq_some h)) ha
      subst hpre0
      rw [List.nil_append] at hacc
      subst hacc
      rcases List.append_eq_append_iff.1 hxp with ⟨x1, hxa, hb⟩ | ⟨a2, hax, hpo⟩
      · -- c1 = x ++ x1 ... orientation checked below
        cases x1 with
        | nil =>
          rw [List.append_nil] at hxa
          exact Or.inl hxa.symm
        | cons y x2 =>
          left
          rw [List.cons_append] at hb
          rcases hpost with h | h
          · subst h
            simp at hb
          · obtain ⟨t, rfl⟩ := List.head?_eq_some_iff.1 h
            have hy : y = 44 := (List.cons.inj hb).1.symm
            subst hy
            exact absurd (hxa ▸ List.mem_append_right _ (List.mem_cons_self _ _)) ha
      · cases a2 with
        | nil =>
          rw [List.append_nil] at hax
          exact Or.inl hax
        | cons y x2 =>
          rw [List.cons_append] at hpo
          have hy : y = 44 := (List.cons.inj hpo).1.symm
          subst hy
          exact absurd (hax ▸ List.mem_append_right _ (List.mem_cons_self _ _)) hx
  · rintro (rfl | ⟨hx, pre, post, rfl, hpre, hpost⟩)
    · exact ⟨ha, [], 44 :: b, by simp, Or.inl rfl, Or.inr rfl⟩
    · refine ⟨hx, a ++ 44 :: pre, post, by simp, Or.inr ?_, hpost⟩
      rw [List.getLast?_append_cons, List.getLast?_cons]
      rcases hpre with h | h
      · subst h; rfl
      · rw [h]; rfl

/-- The pieces of a split on commas are the items of the text. -/
theorem mem_genSplit_iff (x : GoString) : ∀ (count : Nat) (s : GoString), s.length ≤ count →
    (x ∈ genSplit [44] count s ↔ isItem x s) := by
  intro count
  induction count using Nat.strong_induction_on with
  | _ count ih =>
    intro s hlen
    rcases stringsIndex_single 44 s with ⟨hx, _⟩ | ⟨a, b, rfl, ha, _⟩
    · rw [genSplit_not_mem 44 s hx, isItem_of_not_mem x s hx, List.mem_singleton]
    · have hl : (a ++ 44 :: b).length = (a.length + b.length) + 1 := by simp; omega
      obtain ⟨c, rfl⟩ : ∃ c, count = c + 1 := ⟨count - 1, by omega⟩
      rw [genSplit_step 44 a b ha, List.mem_cons, isItem_append_cons x a b ha,
        ih c (by omega) b (by omega)]

theorem isItem_concat (x t : GoString) (hx : x ≠ []) : isItem x (t ++ [44]) ↔ isItem x t := by
  rw [isItem_iff, isItem_iff]
  constructor
  · rintro ⟨hx44, pre, post, heq, hpre, hpost⟩
    induction post using List.reverseRecOn with
    | nil =>
      rw [List.append_nil] at heq
      obtain ⟨x0, y, rfl⟩ : ∃ x0 y, x = x0 ++ [y] :=
        ⟨x.dropLast, x.getLast hx, (List.dropLast_append_getLast hx).symm⟩
      rw [← List.append_assoc] at heq
      have := (List.append_inj' heq rfl).2
      simp only [List.cons.injEq, and_true] at this
      exact absurd (this ▸ List.mem_append_right _ (List.mem_singleton_self _)) hx44
    | append_singleton post0 y _ =>
      rw [← List.append_assoc] at heq
      have h1 := (List.append_inj' heq rfl).1
      refine ⟨hx44, pre, post0, h1, hpre, ?_⟩
      rcases hpost with h | h
      · simp at h
      · by_cases hp0 : post0 = []
        · exact Or.inl hp0
        · right
          obtain ⟨z, zs, rfl⟩ := List.exists_cons_of_ne_nil hp0
          simpa using h
  · rintro ⟨hx44, pre, post, rfl, hpre, hpost⟩
    refine ⟨hx44, pre, post ++ [44], by simp, hpre, Or.inr ?_⟩
    rcases hpost with h | h
    · subst h; rfl
    · obtain ⟨t, rfl⟩ := List.head?_eq_some_iff.1 h
      rfl

theorem isItem_append_replicate (x t : GoString) (hx : x ≠ []) (k : Nat) :
    isItem x (t ++ List.replicate k 44) ↔ isItem x t := by
  induction k with
  | zero => simp
  | succ k ih =>
    rw [List.replicate_succ', ← List.append_assoc, isItem_concat x _ hx, ih]

/-- C11 as it is worded fails: the field `"-,"` decodes to `["-"]`, and the
field `"a,-,b"` to `["a", "-", "b"]`; both hold the sentinel as an element. -/
theorem splitDeps_sentinel_counterexample :
    splitDeps (utf8 "-,") = [utf8 "-"]
    ∧ utf8 "-" ∈ splitDeps (utf8 "-,")
    ∧ utf8 "-" ∈ splitDeps (utf8 "a,-,b") := by
  decide

/-- C11, amended. For every dependency field `s`, the sentinel `"-"` is an
element of `splitDeps(s)` exactly when `s` is not the sentinel itself and
`"-"` is one of the comma-delimited items of `s`; so the field `"-"` gives
no element at all, and a field without a `"-"` item (such as one without the
character `-`) never gives the sentinel as an element. -/
theorem splitDeps_sentinel (s : GoString) :
    (utf8 "-" ∈ splitDeps s ↔ s ≠ utf8 "-" ∧ isItem (utf8 "-") s)
    ∧ splitDeps (utf8 "-") = []
    ∧ ('-'.toNat ∉ s → utf8 "-" ∉ splitDeps s) := by
  have hdash : utf8 "-" = [45] := by decide
  have h45 : '-'.toNat = 45 := by decide
  rw [hdash, h45]
  have hiff : [45] ∈ splitDeps s ↔ s ≠ [45] ∧ isItem [45] s := by
    unfold splitDeps
    rw [noDeps_eq, delimDeps_eq]
    by_cases hs : s = [45]
    · rw [if_pos hs]
      simp [hs]
    · rw [if_neg hs]
      obtain ⟨k, hk, _⟩ := stringsTrimRight_spec 44 s
      unfold stringsSplit
      rw [mem_genSplit_iff [45] _ _ (Nat.le_refl _)]
      have : isItem [45] s ↔ isItem [45] (stringsTrimRight s [44]) := by
        conv_lhs => rw [hk]
        exact isItem_append_replicate [45] _ (by simp) k
      rw [this]
      simp [hs]
  refine ⟨hiff, by decide, ?_⟩
  intro hno hmem
  obtain ⟨_, pre, post, rfl, _, _⟩ := (isItem_iff _ _).1 (hiff.1 hmem).2
  exact hno (by simp)

theorem splitDeps_sentinel_witness :
    utf8 "-" ∉ splitDeps (utf8 "usbcore,ehci_hcd,") :=
  (splitDeps_sentinel (utf8 "usbcore,ehci_hcd,")).2.2 (by decide)

/-! ## Lemmas: `strings.Fields` -/

/-- The bound of the loop of `Fields` is never what ends it: any bound from
`len(s)` on gives the same fields. -/
theorem fieldsAux_fuel : ∀ (fuel : Nat) (s cur : GoString), s.length ≤ fuel →
    fieldsAux fuel s cur = fieldsAux s.length s cur := by
  intro fuel
  induction fuel using Nat.strong_induction_on with
  | _ fuel ih =>
    intro s cur hlen
    cases s with
    | nil => cases fuel <;> rfl
    | cons b rest =>
      obtain ⟨f, rfl⟩ : ∃ f, fuel = f + 1 := ⟨fuel - 1, by simp at hlen; omega⟩
      have hsz := decodeRune_size b rest
      have hdrop : ((b :: rest).drop (decodeRune (b :: rest)).2).length ≤ rest.length := by
        rw [List.length_drop, List.length_cons]
        omega
      simp only [List.length_cons] at hlen
      rw [List.length_cons, fieldsAux, fieldsAux]
      rw [ih f (by omega) _ [] (by omega), ih rest.length (by omega) _ [] hdrop,
        ih f (by omega) _ (cur ++ (b :: rest).take (decodeRune (b :: rest)).2) (by omega),
        ih rest.length (by omega) _ (cur ++ (b :: rest).take (decodeRune (b :: rest)).2) hdrop]

/-- Every field `Fields` returns is non-empty. -/
theorem fieldsAux_ne_nil : ∀ (fuel : Nat) (s cur : GoString),
    ∀ f ∈ fieldsAux fuel s cur, f ≠ [] := by
  intro fuel
  induction fuel with
  | zero =>
    intro s cur f hf
    rw [fieldsAux] at hf
    by_cases hc : cur = []
    · simp [hc] at hf
    · simp [hc] at hf
      rw [hf]; exact hc
  | succ fuel ih =>
    intro s cur f hf
    cases s with
    | nil =>
      by_cases hc : cur = []
      · simp [fieldsAux, hc] at hf
      · simp [fieldsAux, hc] at hf
        rw [hf]; exact hc
    | cons b rest =>
      rw [fieldsAux] at hf
      split at hf
      · split at hf
        · exact ih _ _ f hf
        · rename_i hc
          rcases List.mem_cons.1 hf with rfl | hf
          · exact hc
          · exact ih _ _ f hf
      · exact ih _ _ f hf

theorem stringsFields_ne_nil (s : GoString) : ∀ f ∈ stringsFields s, f ≠ [] :=
  fieldsAux_ne_nil s.length s []

/-! ## Lemmas: `parseInfo` -/

/-- What `parseInfo` returns: no error exactly when the fields decode, and
then the record the fields describe. -/
theorem parseInfo_spec {σ : Type} [Inhabited σ] (ps : GoString → σ × Option GoError)
    (ord : Nat → List (GoString × modTainted)) (fields : List GoString) :
    ((parseInfo ps ord fields).2 = none ↔ fieldsDecode ps ord fields)
    ∧ ((parseInfo ps ord fields).2 = none →
        (parseInfo ps ord fields).1 = recordOf ps ord fields) := by
  unfold parseInfo fieldsDecode recordOf maxFieldsPerLine
  simp only []
  repeat' split
  all_goals simp_all

/-- The result of `parseTainted` does not depend on the orders in which its
inner loops visit the map. -/
theorem parseTainted_order (ord ord2 : Nat → List (GoString × modTainted))
    (hord : ∀ k, (ord k).Perm taintFlagMap) (hord2 : ∀ k, (ord2 k).Perm taintFlagMap)
    (s : GoString) : parseTainted ord s = parseTainted ord2 s := by
  by_cases hw : ∃ body, s = 40 :: (body ++ [41])
  · obtain ⟨body, rfl⟩ := hw
    rw [parseTainted_eq ord hord, parseTainted_eq ord2 hord2]
  · rw [parseTainted_not_wrapped ord s hw, parseTainted_not_wrapped ord2 s hw]

theorem parseInfo_order {σ : Type} [Inhabited σ] (ps : GoString → σ × Option GoError)
    (ord ord2 : Nat → List (GoString × modTainted))
    (hord : ∀ k, (ord k).Perm taintFlagMap) (hord2 : ∀ k, (ord2 k).Perm taintFlagMap)
    (fields : List GoString) : parseInfo ps ord fields = parseInfo ps ord2 fields := by
  unfold parseInfo
  rw [parseTainted_order ord ord2 hord hord2]

theorem sourceOrder_perm : ∀ k, (sourceOrder k).Perm taintFlagMap :=
  fun _ => List.Perm.refl _

/-! ## The claims about `parseInfo` -/

/-- C13. Optional seventh field: for every list of exactly 6 fields whose
fields 2, 3, 5 and 6 decode, `parseInfo` succeeds with `Tainted` equal to 0,
whose text is `"()"`; for every list of exactly 7 such fields, `parseInfo`
succeeds if and only if `parseTainted` accepts field 7, and `Tainted` is
then `parseTainted(field 7)`. -/
theorem parseInfo_tainted {σ : Type} [Inhabited σ] (ps : GoString → σ × Option GoError)
    (ord : Nat → List (GoString × modTainted)) (fields : List GoString)
    (h2 : (parseUint (fields.getD 1 [])).2 = none)
    (h3 : (parseUint (fields.getD 2 [])).2 = none)
    (h5 : (ps (fields.getD 4 [])).2 = none)
    (h6 : (parseUint (fields.getD 5 [])).2 = none) :
    (fields.length = 6 →
        (parseInfo ps ord fields).2 = none ∧ (parseInfo ps ord fields).1.Tainted = 0
          ∧ ∀ iter, modTainted.String iter (parseInfo ps ord fields).1.Tainted = utf8 "()")
    ∧ (fields.length = 7 →
        ((parseInfo ps ord fields).2 = none ↔ (parseTainted ord (fields.getD 6 [])).2 = none)
        ∧ ((parseInfo ps ord fields).2 = none →
            (parseInfo ps ord fields).1.Tainted = (parseTainted ord (fields.getD 6 [])).1)) := by
  obtain ⟨hiff, hrec⟩ := parseInfo_spec ps ord fields
  constructor
  · intro hlen
    have hok : (parseInfo ps ord fields).2 = none :=
      hiff.2 ⟨h2, h3, h5, h6, fun h7 => by omega⟩
    have ht : (parseInfo ps ord fields).1.Tainted = 0 := by
      rw [hrec hok]
      unfold recordOf
      simp only
      rw [if_neg (by omega)]
    refine ⟨hok, ht, ?_⟩
    intro iter
    rw [ht]
    rfl
  · intro hlen
    constructor
    · rw [hiff]
      unfold fieldsDecode
      constructor
      · intro h
        exact h.2.2.2.2 hlen
      · intro h
        exact ⟨h2, h3, h5, h6, fun _ => h⟩
    · intro hok
      rw [hrec hok]
      unfold recordOf
      simp only
      rw [if_pos hlen]

theorem parseInfo_tainted_witness :
    (parseInfo parseState sourceOrder (stringsFields (utf8 "nonexistent 0 0 - Live 0x0"))).2 = none
    ∧ (parseInfo parseState sourceOrder
        (stringsFields (utf8 "nonexistent 0 0 - Live 0x0"))).1.Tainted = 0
    ∧ ∀ iter, modTainted.String iter (parseInfo parseState sourceOrder
        (stringsFields (utf8 "nonexistent 0 0 - Live 0x0"))).1.Tainted = utf8 "()" :=
  (parseInfo_tainted parseState sourceOrder (stringsFields (utf8 "nonexistent 0 0 - Live 0x0"))
    (by decide) (by decide) (by decide) (by decide)).1 (by decide)

/-- C19. First failing field is reported: for every list of 6 or 7 fields,
`parseInfo` checks the fields in the order 2 (mem), 3 (instances), 5 (state),
6 (offset), 7 (tainted, when present) and returns the error of the first one
that fails to decode, wrapped with the message that names that field; field
4 can never cause a failure: with any other text in its place the error is
the same. -/
theorem parseInfo_first_failure {σ : Type} [Inhabited σ] (ps : GoString → σ × Option GoError)
    (ord : Nat → List (GoString × modTainted)) (fields : List GoString)
    (_hlen : fields.length = 6 ∨ fields.length = 7) :
    (parseInfo ps ord fields).2
      = [ ((parseUint (fields.getD 1 [])).2, "invalid mem (field 2)"),
          ((parseUint (fields.getD 2 [])).2, "invalid instances (field 3)"),
          ((ps (fields.getD 4 [])).2, "unknown state (field 5)"),
          ((parseUint (fields.getD 5 [])).2, "invalid offset (field 6)"),
          (if fields.length = 7 then (parseTainted ord (fields.getD 6 [])).2 else none,
            "unknown tainted (field 7)") ].findSome?
          (fun p => p.1.map fun err => GoError.wrap err p.2)
    ∧ (∀ deps : GoString,
        (parseInfo ps ord (fields.set 3 deps)).2 = (parseInfo ps ord fields).2)
    ∧ ("invalid mem (" ++ "field 2" ++ ")" = "invalid mem (field 2)"
        ∧ "invalid instances (" ++ "field 3" ++ ")" = "invalid instances (field 3)"
        ∧ "unknown state (" ++ "field 5" ++ ")" = "unknown state (field 5)"
        ∧ "invalid offset (" ++ "field 6" ++ ")" = "invalid offset (field 6)"
        ∧ "unknown tainted (" ++ "field 7" ++ ")" = "unknown tainted (field 7)") := by
  have hfirst : ∀ fs : List GoString, (parseInfo ps ord fs).2
      = [ ((parseUint (fs.getD 1 [])).2, "invalid mem (field 2)"),
          ((parseUint (fs.getD 2 [])).2, "invalid instances (field 3)"),
          ((ps (fs.getD 4 [])).2, "unknown state (field 5)"),
          ((parseUint (fs.getD 5 [])).2, "invalid offset (field 6)"),
          (if fs.length = 7 then (parseTainted ord (fs.getD 6 [])).2 else none,
            "unknown tainted (field 7)") ].findSome?
          (fun p => p.1.map fun err => GoError.wrap err p.2) := by
    intro fs
    unfold parseInfo maxFieldsPerLine
    simp only []
    repeat' split
    all_goals simp_all [List.findSome?]
  refine ⟨hfirst fields, ?_, by decide⟩
  intro deps
  rw [hfirst, hfirst fields, List.length_set]
  have hget : ∀ i, i ≠ 3 → (fields.set 3 deps).getD i [] = fields.getD i [] := by
    intro i hi
    simp only [List.getD_eq_getElem?_getD]
    rw [List.getElem?_set_ne (by omega)]
  rw [hget 1 (by decide), hget 2 (by decide), hget 4 (by decide), hget 5 (by decide),
    hget 6 (by decide)]

theorem parseInfo_first_failure_witness :
    (parseInfo parseState sourceOrder (stringsFields (utf8 "usbcore 1 x - Bad 0x (Z)"))).2
      = some (.wrap (.numError "ParseUint" (utf8 "x") .errSyntax) "invalid instances (field 3)") :=
  ((parseInfo_first_failure parseState sourceOrder
    (stringsFields (utf8 "usbcore 1 x - Bad 0x (Z)")) (by decide)).1).trans (by decide)

/-! ## Lemmas: maps -/

theorem mem_mapSet {κ ν : Type} [DecidableEq κ] (m : List (κ × ν)) (k k2 : κ) (v v2 : ν) :
    (k, v) ∈ mapSet m k2 v2 ↔ (k = k2 ∧ v = v2) ∨ (k ≠ k2 ∧ (k, v) ∈ m) := by
  unfold mapSet
  by_cases hany : m.any (fun e => decide (e.1 = k2)) = true
  · rw [if_pos hany]
    obtain ⟨a, ha, hk⟩ := List.any_eq_true.1 hany
    have hak : a.1 = k2 := of_decide_eq_true hk
    rw [List.mem_map]
    constructor
    · rintro ⟨e, he, heq⟩
      by_cases hek : e.1 = k2
      · rw [if_pos hek] at heq
        exact Or.inl ⟨(congrArg Prod.fst heq).symm, (congrArg Prod.snd heq).symm⟩
      · rw [if_neg hek] at heq
        subst heq
        exact Or.inr ⟨hek, he⟩
    · rintro (⟨rfl, rfl⟩ | ⟨hne, hmem⟩)
      · exact ⟨a, ha, by rw [if_pos hak]⟩
      · exact ⟨(k, v), hmem, by rw [if_neg hne]⟩
  · rw [if_neg hany, List.mem_append, List.mem_singleton]
    have hnone : ∀ a ∈ m, a.1 ≠ k2 := by
      intro a ha hk
      exact hany (List.any_eq_true.2 ⟨a, ha, decide_eq_true hk⟩)
    constructor
    · rintro (h | h)
      · exact Or.inr ⟨hnone (k, v) h, h⟩
      · exact Or.inl ⟨(congrArg Prod.fst h), (congrArg Prod.snd h)⟩
    · rintro (⟨rfl, rfl⟩ | ⟨_, hmem⟩)
      · exact Or.inr rfl
      · exact Or.inl hmem

theorem keys_mapSet {κ ν : Type} [DecidableEq κ] (m : List (κ × ν)) (k : κ) (v : ν) :
    (mapSet m k v).map (fun e => e.1)
      = if k ∈ m.map (fun e => e.1) then m.map (fun e => e.1)
        else m.map (fun e => e.1) ++ [k] := by
  unfold mapSet
  by_cases hany : m.any (fun e => decide (e.1 = k)) = true
  · have hk : k ∈ m.map (fun e => e.1) := by
      obtain ⟨a, ha, hak⟩ := List.any_eq_true.1 hany
      exact List.mem_map.2 ⟨a, ha, of_decide_eq_true hak⟩
    rw [if_pos hany, if_pos hk, List.map_map]
    apply List.map_congr_left
    intro e _
    by_cases hek : e.1 = k
    · simp [hek]
    · simp [hek]
  · have hk : k ∉ m.map (fun e => e.1) := by
      intro h
      obtain ⟨a, ha, hak⟩ := List.mem_map.1 h
      exact hany (List.any_eq_true.2 ⟨a, ha, decide_eq_true hak⟩)
    rw [if_neg hany, if_neg hk]
    simp

theorem keys_mapSet_nodup {κ ν : Type} [DecidableEq κ] (m : List (κ × ν)) (k : κ) (v : ν)
    (h : (m.map fun e => e.1).Nodup) : ((mapSet m k v).map fun e => e.1).Nodup := by
  rw [keys_mapSet]
  by_cases hk : k ∈ m.map (fun e => e.1)
  · rw [if_pos hk]; exact h
  · rw [if_neg hk]
    exact List.Nodup.append h (List.nodup_singleton k) (by
      intro x hx hx2
      rw [List.mem_singleton] at hx2
      exact hk (hx2 ▸ hx))

theorem mem_keys_mapSet {κ ν : Type} [DecidableEq κ] (m : List (κ × ν)) (k x : κ) (v : ν) :
    x ∈ (mapSet m k v).map (fun e => e.1) ↔ x = k ∨ x ∈ m.map (fun e => e.1) := by
  rw [keys_mapSet]
  by_cases hk : k ∈ m.map (fun e => e.1)
  · rw [if_pos hk]
    constructor
    · exact Or.inr
    · rintro (rfl | h)
      · exact hk
      · exact h
  · rw [if_neg hk, List.mem_append, List.mem_singleton]
    tauto

/-- The map after a sequence of assignments: keys stay distinct, the keys are
the old ones and the assigned ones, and each assigned key holds the value of
its last assignment. -/
theorem foldl_mapSet_spec {α κ ν : Type} [DecidableEq κ] (key : α → κ) (val : α → ν)
    (xs : List α) : ∀ m : List (κ × ν), (m.map fun e => e.1).Nodup →
    ((xs.foldl (fun m x => mapSet m (key x) (val x)) m).map fun e => e.1).Nodup
    ∧ (∀ k, k ∈ (xs.foldl (fun m x => mapSet m (key x) (val x)) m).map (fun e => e.1)
        ↔ k ∈ m.map (fun e => e.1) ∨ ∃ x ∈ xs, key x = k)
    ∧ (∀ pre x post, xs = pre ++ x :: post → (∀ y ∈ post, key y ≠ key x) →
        (key x, val x) ∈ xs.foldl (fun m x => mapSet m (key x) (val x)) m) := by
  induction xs with
  | nil =>
    intro m hm
    refine ⟨hm, by simp, ?_⟩
    intro pre x post h
    simp at h
  | cons a rest ih =>
    intro m hm
    rw [List.foldl_cons]
    obtain ⟨h1, h2, h3⟩ := ih (mapSet m (key a) (val a)) (keys_mapSet_nodup m _ _ hm)
    refine ⟨h1, ?_, ?_⟩
    · intro k
      rw [h2 k, mem_keys_mapSet]
      constructor
      · rintro ((rfl | h) | ⟨x, hx, rfl⟩)
        · exact Or.inr ⟨a, List.mem_cons_self _ _, rfl⟩
        · exact Or.inl h
        · exact Or.inr ⟨x, List.mem_cons_of_mem _ hx, rfl⟩
      · rintro (h | ⟨x, hx, rfl⟩)
        · exact Or.inl (Or.inr h)
        · rcases List.mem_cons.1 hx with rfl | hx
          · exact Or.inl (Or.inl rfl)
          · exact Or.inr ⟨x, hx, rfl⟩
    · intro pre x post hsplit hpost
      cases pre with
      | nil =>
        rw [List.nil_append] at hsplit
        obtain ⟨rfl, rfl⟩ := List.cons.inj hsplit
        -- the entry of `a` is set first and never changed by the rest
        have hkeep : ∀ (ys : List α) (m2 : List (κ × ν)), (∀ y ∈ ys, key y ≠ key a) →
            (key a, val a) ∈ m2 →
            (key a, val a) ∈ ys.foldl (fun m x => mapSet m (key x) (val x)) m2 := by
          intro ys
          induction ys with
          | nil => intro m2 _ h; exact h
          | cons y ys ihy =>
            intro m2 hys h
            rw [List.foldl_cons]
            apply ihy _ (fun z hz => hys z (List.mem_cons_of_mem _ hz))
            rw [mem_mapSet]
            exact Or.inr ⟨(hys y (List.mem_cons_self _ _)).symm, h⟩
        exact hkeep rest _ hpost ((mem_mapSet m _ _ _ _).2 (Or.inl ⟨rfl, rfl⟩))
      | cons b pre =>
        rw [List.cons_append] at hsplit
        obtain ⟨rfl, hrest⟩ := List.cons.inj hsplit
        exact h3 pre x post hrest hpost

/-! ## Lemmas: the loop of `parse` -/

theorem parseLoop_order {σ : Type} [Inhabited σ] (ps : GoString → σ × Option GoError)
    (ord ord2 : Nat → Nat → List (GoString × modTainted))
    (hord : ∀ i k, (ord i k).Perm taintFlagMap) (hord2 : ∀ i k, (ord2 i k).Perm taintFlagMap)
    (lines : List GoString) : ∀ (i j : Nat) (mods : List (GoString × ModInfo σ)),
    parseLoop ps ord i mods lines = parseLoop ps ord2 j mods lines := by
  induction lines with
  | nil => intro i j mods; rfl
  | cons line rest ih =>
    intro i j mods
    rw [parseLoop, parseLoop, parseInfo_order ps (ord i) (ord2 j) (hord i) (hord2 j)]
    simp only [ih (i + 1) (j + 1)]

/-- One line that decodes: the loop stores its record under its name and goes
on. -/
theorem parseLoop_cons_ok {σ : Type} [Inhabited σ] (ps : GoString → σ × Option GoError)
    (ord : Nat → Nat → List (GoString × modTainted)) (hord : ∀ i k, (ord i k).Perm taintFlagMap)
    (i : Nat) (mods : List (GoString × ModInfo σ)) (line : GoString) (rest : List GoString)
    (h : lineDecodes ps line) :
    parseLoop ps ord i mods (line :: rest)
      = parseLoop ps ord (i + 1) (mapSet mods (lineName line) (lineRecord ps line)) rest := by
  obtain ⟨h6, h7, hdec⟩ := h
  obtain ⟨hiff, hrec⟩ := parseInfo_spec ps sourceOrder (stringsFields line)
  have hok := hiff.2 hdec
  rw [parseLoop, parseInfo_order ps (ord i) sourceOrder (hord i) sourceOrder_perm,
    if_neg (by unfold minFieldsPerLine maxFieldsPerLine; omega)]
  simp only [hok, hrec hok]
  rfl

/-- One line that does not decode: the loop stops with an error, which does
not depend on the lines before and after it. -/
theorem parseLoop_cons_bad {σ : Type} [Inhabited σ] (ps : GoString → σ × Option GoError)
    (ord : Nat → Nat → List (GoString × modTainted)) (hord : ∀ i k, (ord i k).Perm taintFlagMap)
    (i : Nat) (mods : List (GoString × ModInfo σ)) (line : GoString) (rest : List GoString)
    (h : ¬ lineDecodes ps line) :
    ∃ err, parseLoop ps ord i mods (line :: rest) = (mods, some err)
      ∧ parseLoop ps (fun _ => sourceOrder) 0 [] [line] = ([], some err)
      ∧ (((stringsFields line).length < 6 ∨ 7 < (stringsFields line).length) →
          err = .errorf "invalid input line %q" [.str line])
      ∧ (¬ ((stringsFields line).length < 6 ∨ 7 < (stringsFields line).length) →
          ∃ cause, err = .wrapf cause "error parsing %q" [.str ProcModules]
            ∧ (parseInfo ps sourceOrder (stringsFields line)).2 = some cause) := by
  rw [parseLoop, parseLoop, parseInfo_order ps (ord i) sourceOrder (hord i) sourceOrder_perm]
  unfold minFieldsPerLine maxFieldsPerLine
  by_cases hc : (stringsFields line).length < 6 ∨ 7 < (stringsFields line).length
  · rw [if_pos hc, if_pos hc]
    exact ⟨_, rfl, rfl, fun _ => rfl, fun hn => absurd hc hn⟩
  · rw [if_neg hc, if_neg hc]
    obtain ⟨hiff, _⟩ := parseInfo_spec ps sourceOrder (stringsFields line)
    cases herr : (parseInfo ps sourceOrder (stringsFields line)).2 with
    | none =>
      exfalso
      exact h ⟨by omega, by omega, hiff.1 herr⟩
    | some cause =>
      simp only
      exact ⟨_, rfl, rfl, fun hy => absurd hy hc, fun _ => ⟨cause, rfl, rfl⟩⟩

/-- Either every line decodes, or there is a first line that does not. -/
theorem lines_split {σ : Type} (ps : GoString → σ × Option GoError) (lines : List GoString) :
    (∀ l ∈ lines, lineDecodes ps l)
      ∨ ∃ pre bad post, lines = pre ++ bad :: post ∧ (∀ l ∈ pre, lineDecodes ps l)
          ∧ ¬ lineDecodes ps bad := by
  induction lines with
  | nil => exact Or.inl (by simp)
  | cons line rest ih =>
    by_cases h : lineDecodes ps line
    · rcases ih with hall | ⟨pre, bad, post, rfl, hpre, hbad⟩
      · left
        intro l hl
        rcases List.mem_cons.1 hl with rfl | hl
        · exact h
        · exact hall l hl
      · right
        refine ⟨line :: pre, bad, post, rfl, ?_, hbad⟩
        intro l hl
        rcases List.mem_cons.1 hl with rfl | hl
        · exact h
        · exact hpre l hl
    · exact Or.inr ⟨[], line, rest, rfl, by simp, h⟩

/-- The loop over lines that all decode: every record is stored under its
name, in the order of the lines. -/
theorem parseLoop_all_ok {σ : Type} [Inhabited σ] (ps : GoString → σ × Option GoError)
    (ord : Nat → Nat → List (GoString × modTainted)) (hord : ∀ i k, (ord i k).Perm taintFlagMap)
    (lines : List GoString) : ∀ (i : Nat) (mods : List (GoString × ModInfo σ)),
    (∀ l ∈ lines, lineDecodes ps l) →
    parseLoop ps ord i mods lines
      = (lines.foldl (fun m l => mapSet m (lineName l) (lineRecord ps l)) mods, none) := by
  induction lines with
  | nil => intro i mods _; rfl
  | cons line rest ih =>
    intro i mods hall
    rw [parseLoop_cons_ok ps ord hord i mods line rest (hall line (List.mem_cons_self _ _)),
      ih (i + 1) _ (fun l hl => hall l (List.mem_cons_of_mem _ hl)), List.foldl_cons]

/-- The loop over lines of which one does not decode: it stops at the first
such line, with the error of that line. -/
theorem parseLoop_first_bad {σ : Type} [Inhabited σ] (ps : GoString → σ × Option GoError)
    (ord : Nat → Nat → List (GoString × modTainted)) (hord : ∀ i k, (ord i k).Perm taintFlagMap)
    (pre : List GoString) (bad : GoString) (post : List GoString)
    (hbad : ¬ lineDecodes ps bad) : ∀ (i : Nat) (mods : List (GoString × ModInfo σ)),
    (∀ l ∈ pre, lineDecodes ps l) →
    ∃ err, (parseLoop ps ord i mods (pre ++ bad :: post)).2 = some err
      ∧ parseLoop ps (fun _ => sourceOrder) 0 [] [bad] = ([], some err) := by
  induction pre with
  | nil =>
    intro i mods _
    obtain ⟨err, h1, h2, _⟩ := parseLoop_cons_bad ps ord hord i mods bad post hbad
    exact ⟨err, by rw [List.nil_append, h1], h2⟩
  | cons line rest ih =>
    intro i mods hall
    rw [List.cons_append,
      parseLoop_cons_ok ps ord hord i mods line _ (hall line (List.mem_cons_self _ _))]
    exact ih (i + 1) _ (fun l hl => hall l (List.mem_cons_of_mem _ hl))

/-! ## Lemmas: `parse` -/

theorem parse_all_ok {σ : Type} [Inhabited σ] (ps : GoString → σ × Option GoError)
    (ord : Nat → Nat → List (GoString × modTainted)) (hord : ∀ i k, (ord i k).Perm taintFlagMap)
    (fs : GoString → Source) (fileName : GoString) (lines : List GoString)
    (scanErr : Option GoError) (hsrc : fs fileName = .opened lines scanErr)
    (hall : ∀ l ∈ lines, lineDecodes ps l) :
    parse ps ord fs fileName =
      (if scanErr.isSome then none
        else some (lines.foldl (fun m l => mapSet m (lineName l) (lineRecord ps l)) []),
       scanErr.map fun err => GoError.wrapf err "Error reading %q" [.str ProcModules]) := by
  unfold parse
  rw [hsrc]
  simp only [parseLoop_all_ok ps ord hord lines 0 [] hall]
  cases scanErr <;> rfl

theorem parse_first_bad {σ : Type} [Inhabited σ] (ps : GoString → σ × Option GoError)
    (ord : Nat → Nat → List (GoString × modTainted)) (hord : ∀ i k, (ord i k).Perm taintFlagMap)
    (fs : GoString → Source) (fileName : GoString) (pre : List GoString) (bad : GoString)
    (post : List GoString) (scanErr : Option GoError)
    (hsrc : fs fileName = .opened (pre ++ bad :: post) scanErr)
    (hpre : ∀ l ∈ pre, lineDecodes ps l) (hbad : ¬ lineDecodes ps bad) :
    ∃ err, parse ps ord fs fileName = (none, some err)
      ∧ parseLoop ps (fun _ => sourceOrder) 0 [] [bad] = ([], some err) := by
  obtain ⟨err, h1, h2⟩ := parseLoop_first_bad ps ord hord pre bad post hbad 0 [] hpre
  refine ⟨err, ?_, h2⟩
  unfold parse
  rw [hsrc]
  simp only
  rcases hloop : parseLoop ps ord 0 [] (pre ++ bad :: post) with ⟨mods, e⟩
  rw [hloop] at h1
  simp only at h1
  subst h1
  rfl

theorem parse_single_bad {σ : Type} [Inhabited σ] (ps : GoString → σ × Option GoError)
    (ord : Nat → Nat → List (GoString × modTainted)) (hord : ∀ i k, (ord i k).Perm taintFlagMap)
    (fileName : GoString) (bad : GoString) (err : GoError)
    (h : parseLoop ps (fun _ => sourceOrder) 0 [] [bad] = ([], some err)) :
    parse ps ord (fun _ => .opened [bad] none) fileName = (none, some err) := by
  unfold parse
  simp only
  rw [parseLoop_order ps ord (fun _ => sourceOrder) hord (fun _ => sourceOrder_perm) [bad] 0 0 [],
    h]

theorem last_occurrence {α : Type} (P : α → Prop) (xs : List α) (h : ∃ x ∈ xs, P x) :
    ∃ pre x post, xs = pre ++ x :: post ∧ P x ∧ ∀ y ∈ post, ¬ P y := by
  induction xs with
  | nil => simp at h
  | cons a rest ih =>
    by_cases hrest : ∃ x ∈ rest, P x
    · obtain ⟨pre, x, post, rfl, hx, hpost⟩ := ih hrest
      exact ⟨a :: pre, x, post, rfl, hx, hpost⟩
    · obtain ⟨x, hx, hPx⟩ := h
      rcases List.mem_cons.1 hx with rfl | hx
      · exact ⟨[], x, rest, rfl, hPx, fun y hy hPy => hrest ⟨y, hy, hPy⟩⟩
      · exact absurd ⟨x, hx, hPx⟩ hrest

/-! ## The claims about `parse` -/

/-- C12. Field-count validation: `parse` returns the invalid-input-line error
carrying the text `t` if and only if `t` is a line of the input all of whose
predecessors decode and whose number of whitespace-separated fields is below
6 or above 7; so the first line that `parse` does not get past is rejected
with this error exactly when its count is outside 6..7 (a blank line, a line
of 5 fields, a line of 8 fields), and a line with 6 or 7 fields never
produces this error. -/
theorem parse_invalid_line {σ : Type} [Inhabited σ] (ps : GoString → σ × Option GoError)
    (ord : Nat → Nat → List (GoString × modTainted)) (hord : ∀ i k, (ord i k).Perm taintFlagMap)
    (fs : GoString → Source) (fileName : GoString) (lines : List GoString)
    (scanErr : Option GoError) (hsrc : fs fileName = .opened lines scanErr) :
    (∀ t, parse ps ord fs fileName = (none, some (.errorf "invalid input line %q" [.str t]))
        ↔ ∃ pre post, lines = pre ++ t :: post ∧ (∀ l ∈ pre, lineDecodes ps l)
            ∧ ((stringsFields t).length < minFieldsPerLine
                ∨ maxFieldsPerLine < (stringsFields t).length))
    ∧ (∀ t, 6 ≤ (stringsFields t).length → (stringsFields t).length ≤ 7 →
        (parse ps ord fs fileName).2 ≠ some (.errorf "invalid input line %q" [.str t]))
    ∧ (stringsFields (utf8 "")).length = 0
    ∧ (stringsFields (utf8 "usbcore 155648 6 - Live")).length = 5
    ∧ (stringsFields (utf8 "usbcore 155648 6 - Live 0x0 (O) extra")).length = 8 := by
  have hmin : minFieldsPerLine = 6 := rfl
  have hmax : maxFieldsPerLine = 7 := rfl
  rw [hmin, hmax]
  have hforward : ∀ t, (parse ps ord fs fileName).2
      = some (.errorf "invalid input line %q" [.str t]) →
      ∃ pre post, lines = pre ++ t :: post ∧ (∀ l ∈ pre, lineDecodes ps l)
        ∧ ((stringsFields t).length < 6 ∨ 7 < (stringsFields t).length) := by
    intro t ht
    rcases lines_split ps lines with hall | ⟨pre, bad, post, hsplit, hpre, hbad⟩
    · rw [parse_all_ok ps ord hord fs fileName lines scanErr hsrc hall] at ht
      cases scanErr <;> simp at ht
    · subst hsplit
      obtain ⟨err, h1, h2⟩ :=
        parse_first_bad ps ord hord fs fileName pre bad post scanErr hsrc hpre hbad
      obtain ⟨err2, h3, _, hcount, hdecode⟩ :=
        parseLoop_cons_bad ps (fun _ => sourceOrder) (fun _ => sourceOrder_perm) 0 [] bad [] hbad
      rw [h3] at h2
      have herr : err2 = err := by simpa using h2
      subst herr
      rw [h1] at ht
      simp only [Option.some.injEq] at ht
      by_cases hc : (stringsFields bad).length < 6 ∨ 7 < (stringsFields bad).length
      · rw [hcount hc] at ht
        simp only [GoError.errorf.injEq, List.cons.injEq, FmtArg.str.injEq, and_true,
          true_and] at ht
        subst ht
        exact ⟨pre, post, rfl, hpre, hc⟩
      · obtain ⟨cause, hw, _⟩ := hdecode hc
        rw [hw] at ht
        simp at ht
  refine ⟨?_, ?_, by decide, by decide, by decide⟩
  · intro t
    constructor
    · intro h
      exact hforward t (by rw [h])
    · rintro ⟨pre, post, rfl, hpre, hc⟩
      have hbad : ¬ lineDecodes ps t := by
        rintro ⟨h6, h7, _⟩
        omega
      obtain ⟨err, h1, h2⟩ :=
        parse_first_bad ps ord hord fs fileName pre t post scanErr hsrc hpre hbad
      obtain ⟨err2, h3, _, hcount, _⟩ :=
        parseLoop_cons_bad ps (fun _ => sourceOrder) (fun _ => sourceOrder_perm) 0 [] t [] hbad
      rw [h3] at h2
      have herr : err2 = err := by simpa using h2
      subst herr
      rw [h1, hcount hc]
  · intro t h6 h7 ht
    obtain ⟨_, _, _, _, hc⟩ := hforward t ht
    omega

theorem parse_invalid_line_witness :
    parse parseState (fun _ => sourceOrder)
        (fun _ => .opened [utf8 "usbcore 1 6 - Live 0x0", utf8 "ehci 1 6 - Live"] none)
        (utf8 "/proc/modules")
      = (none, some (.errorf "invalid input line %q" [.str (utf8 "ehci 1 6 - Live")])) :=
  ((parse_invalid_line parseState (fun _ => sourceOrder) (fun _ => sourceOrder_perm)
    (fun _ => .opened [utf8 "usbcore 1 6 - Live 0x0", utf8 "ehci 1 6 - Live"] none)
    (utf8 "/proc/modules") [utf8 "usbcore 1 6 - Live 0x0", utf8 "ehci 1 6 - Live"] none rfl).1
      (utf8 "ehci 1 6 - Live")).2
    ⟨[utf8 "usbcore 1 6 - Live 0x0"], [], by decide, by
      intro l hl
      rw [List.mem_singleton] at hl
      subst hl
      exact ⟨by decide, by decide, by decide, by decide, by decide, by decide,
        fun h => absurd h (by decide)⟩, Or.inl (by decide)⟩

/-- C14. Record assembly: for every line of 6 or 7 fields on which every
field decoder succeeds (the load-state decoder `parseState` being any
function), `parseInfo` returns the record with `Mem = parseUint(field 2)`,
`Instances = parseUint(field 3)`, `Depends = splitDeps(field 4)`,
`State = parseState(field 5)`, `Offset = parseUint(field 6)` and
`Tainted = parseTainted(field 7)`, or 0 without a seventh field; and `parse`
of the input made of that line stores this record under the key field 1. -/
theorem parse_record {σ : Type} [Inhabited σ] (ps : GoString → σ × Option GoError)
    (ord : Nat → Nat → List (GoString × modTainted)) (fs : GoString → Source) (fileName : GoString) (line : GoString)
    (hsrc : fs fileName = .opened [line] none)
    (hcount : (stringsFields line).length = 6 ∨ (stringsFields line).length = 7)
    (hdecode : fieldsDecode ps (ord 0) (stringsFields line)) :
    parseInfo ps (ord 0) (stringsFields line)
      = ({ Mem := (parseUint ((stringsFields line).getD 1 [])).1
           Instances := (parseUint ((stringsFields line).getD 2 [])).1
           Depends := splitDeps ((stringsFields line).getD 3 [])
           State := (ps ((stringsFields line).getD 4 [])).1
           Offset := (parseUint ((stringsFields line).getD 5 [])).1
           Tainted := if (stringsFields line).length = 7 then
               (parseTainted (ord 0) ((stringsFields line).getD 6 [])).1 else 0 }, none)
    ∧ parse ps ord fs fileName
      = (some [((stringsFields line).getD 0 [],
          { Mem := (parseUint ((stringsFields line).getD 1 [])).1
            Instances := (parseUint ((stringsFields line).getD 2 [])).1
            Depends := splitDeps ((stringsFields line).getD 3 [])
            State := (ps ((stringsFields line).getD 4 [])).1
            Offset := (parseUint ((stringsFields line).getD 5 [])).1
            Tainted := if (stringsFields line).length = 7 then
                (parseTainted (ord 0) ((stringsFields line).getD 6 [])).1 else 0 })], none) := by
  obtain ⟨hiff, hrec⟩ := parseInfo_spec ps (ord 0) (stringsFields line)
  have hok := hiff.2 hdecode
  have hinfo : parseInfo ps (ord 0) (stringsFields line)
      = (recordOf ps (ord 0) (stringsFields line), none) := Prod.ext (hrec hok) hok
  refine ⟨hinfo, ?_⟩
  unfold parse
  rw [hsrc]
  simp only
  rw [parseLoop, if_neg (by unfold minFieldsPerLine maxFieldsPerLine; omega), hinfo]
  rfl

theorem parse_record_witness :
    parse parseState (fun _ => sourceOrder)
        (fun _ => .opened
          [utf8 "usbcore 155648 6 ehci_hcd,xhci_hcd, Live 0x0000000000000000 (O)"] none)
        (utf8 "/proc/modules")
      = (some [(utf8 "usbcore",
          { Mem := 155648, Instances := 6, Depends := [utf8 "ehci_hcd", utf8 "xhci_hcd"],
            State := modState.Live, Offset := 0, Tainted := 4096 })], none) :=
  (parse_record parseState (fun _ => sourceOrder)
    (fun _ => .opened
      [utf8 "usbcore 155648 6 ehci_hcd,xhci_hcd, Live 0x0000000000000000 (O)"] none)
    (utf8 "/proc/modules")
    (utf8 "usbcore 155648 6 ehci_hcd,xhci_hcd, Live 0x0000000000000000 (O)") rfl
    (Or.inr (by decide))
    ⟨by decide, by decide, by decide, by decide, fun _ => by decide⟩).2.trans (by decide)

/-- C15. Fail-fast, all or nothing: `parse` returns either a non-nil mapping
with no error or a nil mapping with an error, never an error with a mapping;
when the input is read to its end, there is no error exactly when every line
has 6 or 7 fields and all its fields decode; and otherwise the error is the
one `parse` gives for the first line that does not decode taken alone,
however many lines that decode precede it and whatever follows it. -/
theorem parse_all_or_nothing {σ : Type} [Inhabited σ] (ps : GoString → σ × Option GoError)
    (ord : Nat → Nat → List (GoString × modTainted)) (hord : ∀ i k, (ord i k).Perm taintFlagMap)
    (fs : GoString → Source) (fileName : GoString) :
    (((parse ps ord fs fileName).1 ≠ none ∧ (parse ps ord fs fileName).2 = none)
        ∨ ((parse ps ord fs fileName).1 = none ∧ (parse ps ord fs fileName).2 ≠ none))
    ∧ (∀ lines, fs fileName = .opened lines none →
        ((parse ps ord fs fileName).2 = none ↔ ∀ l ∈ lines, lineDecodes ps l))
    ∧ (∀ pre bad post scanErr, fs fileName = .opened (pre ++ bad :: post) scanErr →
        (∀ l ∈ pre, lineDecodes ps l) → ¬ lineDecodes ps bad →
        (parse ps ord fs fileName).1 = none
        ∧ (parse ps ord fs fileName).2 ≠ none
        ∧ parse ps ord fs fileName = parse ps ord (fun _ => .opened [bad] none) fileName) := by
  have hthird : ∀ pre bad post scanErr, fs fileName = .opened (pre ++ bad :: post) scanErr →
      (∀ l ∈ pre, lineDecodes ps l) → ¬ lineDecodes ps bad →
      (parse ps ord fs fileName).1 = none
      ∧ (parse ps ord fs fileName).2 ≠ none
      ∧ parse ps ord fs fileName = parse ps ord (fun _ => .opened [bad] none) fileName := by
    intro pre bad post scanErr hsrc hpre hbad
    obtain ⟨err, h1, h2⟩ :=
      parse_first_bad ps ord hord fs fileName pre bad post scanErr hsrc hpre hbad
    rw [h1, parse_single_bad ps ord hord fileName bad err h2]
    exact ⟨rfl, by simp, rfl⟩
  refine ⟨?_, ?_, hthird⟩
  · cases hsrc : fs fileName with
    | openError err =>
      right
      unfold parse
      rw [hsrc]
      exact ⟨rfl, by simp⟩
    | opened lines scanErr =>
      rcases lines_split ps lines with hall | ⟨pre, bad, post, hsplit, hpre, hbad⟩
      · rw [parse_all_ok ps ord hord fs fileName lines scanErr hsrc hall]
        cases scanErr with
        | none => left; exact ⟨by simp, rfl⟩
        | some e => right; exact ⟨rfl, by simp⟩
      · subst hsplit
        obtain ⟨h1, h2, _⟩ := hthird pre bad post scanErr hsrc hpre hbad
        exact Or.inr ⟨h1, h2⟩
  · intro lines hsrc
    constructor
    · intro hok
      rcases lines_split ps lines with hall | ⟨pre, bad, post, hsplit, hpre, hbad⟩
      · exact hall
      · subst hsplit
        exact absurd hok (hthird pre bad post none hsrc hpre hbad).2.1
    · intro hall
      rw [parse_all_ok ps ord hord fs fileName lines none hsrc hall]
      rfl

theorem parse_all_or_nothing_witness :
    parse parseState (fun _ => sourceOrder)
        (fun _ => .opened [utf8 "usbcore 1 6 - Live 0x0", utf8 "ehci 1 6 - Dead 0x0",
          utf8 "xhci 1 6 - Live 0x0"] none) (utf8 "/proc/modules")
      = parse parseState (fun _ => sourceOrder)
          (fun _ => .opened [utf8 "ehci 1 6 - Dead 0x0"] none) (utf8 "/proc/modules") :=
  ((parse_all_or_nothing parseState (fun _ => sourceOrder) (fun _ => sourceOrder_perm)
    (fun _ => .opened [utf8 "usbcore 1 6 - Live 0x0", utf8 "ehci 1 6 - Dead 0x0",
      utf8 "xhci 1 6 - Live 0x0"] none) (utf8 "/proc/modules")).2.2
    [utf8 "usbcore 1 6 - Live 0x0"] (utf8 "ehci 1 6 - Dead 0x0") [utf8 "xhci 1 6 - Live 0x0"]
    none rfl
    (by
      intro l hl
      rw [List.mem_singleton] at hl
      subst hl
      exact ⟨by decide, by decide, by decide, by decide, by decide, by decide,
        fun h => absurd h (by decide)⟩)
    (by
      rintro ⟨_, _, _, _, h5, _⟩
      revert h5
      decide)).2.2

/-- C16. Result mapping, last line wins: for every sequence of lines that
`parse` accepts, the keys of the returned mapping are distinct and are
exactly the first fields of the lines; the record stored under a name is the
record of the last line carrying that name, and every entry is of this kind;
so the number of entries is the number of distinct names, and it is the
number of lines when the names are pairwise distinct. -/
theorem parse_last_wins {σ : Type} [Inhabited σ] (ps : GoString → σ × Option GoError)
    (ord : Nat → Nat → List (GoString × modTainted)) (hord : ∀ i k, (ord i k).Perm taintFlagMap)
    (fs : GoString → Source) (fileName : GoString) (lines : List GoString)
    (scanErr : Option GoError) (hsrc : fs fileName = .opened lines scanErr)
    (m : List (GoString × ModInfo σ)) (hres : parse ps ord fs fileName = (some m, none)) :
    (m.map fun e => e.1).Nodup
    ∧ (∀ k, k ∈ m.map (fun e => e.1) ↔ ∃ l ∈ lines, lineName l = k)
    ∧ (∀ pre l post, lines = pre ++ l :: post → (∀ l2 ∈ post, lineName l2 ≠ lineName l) →
        (lineName l, recordOf ps (ord pre.length) (stringsFields l)) ∈ m)
    ∧ (∀ k v, (k, v) ∈ m → ∃ pre l post, lines = pre ++ l :: post
        ∧ (∀ l2 ∈ post, lineName l2 ≠ k) ∧ lineName l = k
        ∧ v = recordOf ps (ord pre.length) (stringsFields l))
    ∧ m.length = ((lines.map lineName).dedup).length
    ∧ ((lines.map lineName).Nodup → m.length = lines.length) := by
  have hall : ∀ l ∈ lines, lineDecodes ps l := by
    rcases lines_split ps lines with hall | ⟨pre, bad, post, hsplit, hpre, hbad⟩
    · exact hall
    · subst hsplit
      obtain ⟨err, h1, _⟩ :=
        parse_first_bad ps ord hord fs fileName pre bad post scanErr hsrc hpre hbad
      rw [h1] at hres
      simp at hres
  have hm : m = lines.foldl (fun m l => mapSet m (lineName l) (lineRecord ps l)) [] := by
    rw [parse_all_ok ps ord hord fs fileName lines scanErr hsrc hall] at hres
    cases scanErr with
    | none => simpa using hres.symm
    | some e => simp at hres
  have hrecord : ∀ (i : Nat) (l : GoString),
      recordOf ps (ord i) (stringsFields l) = lineRecord ps l := by
    intro i l
    unfold lineRecord recordOf
    rw [parseTainted_order (ord i) sourceOrder (hord i) sourceOrder_perm]
  obtain ⟨h1, h2, h3⟩ :=
    foldl_mapSet_spec lineName (lineRecord ps) lines ([] : List (GoString × ModInfo σ))
      (by simp)
  rw [← hm] at h1 h2 h3
  have hkeys : ∀ k, k ∈ m.map (fun e => e.1) ↔ ∃ l ∈ lines, lineName l = k := by
    intro k
    rw [h2 k]
    simp
  have hlen : m.length = ((lines.map lineName).dedup).length := by
    have hperm : (m.map fun e => e.1).Perm (lines.map lineName).dedup := by
      apply (List.perm_ext_iff_of_nodup h1 (List.nodup_dedup _)).2
      intro k
      rw [hkeys k, List.mem_dedup, List.mem_map]
    rw [← hperm.length_eq, List.length_map]
  refine ⟨h1, hkeys, ?_, ?_, hlen, ?_⟩
  · intro pre l post hsplit hpost
    rw [hrecord]
    exact h3 pre l post hsplit hpost
  · intro k v hkv
    have hk : ∃ l ∈ lines, lineName l = k :=
      (hkeys k).1 (List.mem_map.2 ⟨(k, v), hkv, rfl⟩)
    obtain ⟨pre, l, post, hsplit, hl, hpost⟩ :=
      last_occurrence (fun l => lineName l = k) lines hk
    refine ⟨pre, l, post, hsplit, hpost, hl, ?_⟩
    have hmem := h3 pre l post hsplit (fun y hy => by rw [hl]; exact hpost y hy)
    rw [hl] at hmem
    have := List.inj_on_of_nodup_map h1 hkv hmem rfl
    rw [hrecord]
    exact congrArg Prod.snd this
  · intro hnd
    rw [hlen, List.Nodup.dedup hnd, List.length_map]

theorem parse_last_wins_witness :
    (utf8 "usbcore", recordOf parseState sourceOrder (stringsFields (utf8 "usbcore 2 7 - Live 0x0")))
      ∈ [(utf8 "usbcore", (⟨2, 7, [], modState.Live, 0, 0⟩ : ModInfo modState)),
          (utf8 "ehci", ⟨1, 1, [], modState.Live, 0, 0⟩)] :=
  (parse_last_wins parseState (fun _ => sourceOrder) (fun _ => sourceOrder_perm)
    (fun _ => .opened [utf8 "usbcore 1 6 - Live 0x0", utf8 "ehci 1 1 - Live 0x0",
      utf8 "usbcore 2 7 - Live 0x0"] none) (utf8 "/proc/modules")
    [utf8 "usbcore 1 6 - Live 0x0", utf8 "ehci 1 1 - Live 0x0", utf8 "usbcore 2 7 - Live 0x0"]
    none rfl
    [(utf8 "usbcore", ⟨2, 7, [], modState.Live, 0, 0⟩), (utf8 "ehci", ⟨1, 1, [], modState.Live, 0, 0⟩)]
    (by decide)).2.2.1
    [utf8 "usbcore 1 6 - Live 0x0", utf8 "ehci 1 1 - Live 0x0"] (utf8 "usbcore 2 7 - Live 0x0") []
    rfl (by simp)

/-- C17 fails on the code: `parse` is given the path `testdata/modules`, the
line read from it has an undecodable field 2, and the error names the
failing field and the constant path `/proc/modules`; it is the very error
returned when the same line is read from `/proc/modules`, so it does not
identify the file that was read. -/
theorem parse_error_names_ProcModules :
    parse parseState (fun _ => sourceOrder)
        (fun _ => .opened [utf8 "usbcore xyz 6 - Live 0x0"] none) (utf8 "testdata/modules")
      = (none, some (.wrapf
          (.wrap (.numError "ParseUint" (utf8 "xyz") .errSyntax) "invalid mem (field 2)")
          "error parsing %q" [.str (utf8 "/proc/modules")]))
    ∧ parse parseState (fun _ => sourceOrder)
        (fun _ => .opened [utf8 "usbcore xyz 6 - Live 0x0"] none) (utf8 "testdata/modules")
      = parse parseState (fun _ => sourceOrder)
          (fun _ => .opened [utf8 "usbcore xyz 6 - Live 0x0"] none) (utf8 "/proc/modules")
    ∧ parse parseState (fun _ => sourceOrder)
        (fun _ => .openError (.errorf "open: no such file" [])) (utf8 "testdata/modules")
      = (none, some (.wrapf (.errorf "open: no such file" []) "Error opening %q"
          [.str (utf8 "testdata/modules")])) :=
  ⟨by decide, by decide, by decide⟩


end Lsmod
